import Mathlib

/-!
Shallow embedding of the Brainfuck-to-x86-64 compiler (src/bfc.c) and proofs
of the specification claims.

The compilation core of `bfc.c` is embedded as executable Lean definitions:

* `Compiler` mirrors the C `Compiler` struct (the `FILE *output` handle is
  replaced by returning the emitted text, and the growable `int *loop_stack`
  array with explicit top index is modelled as a `List Nat` whose head is the
  stack top; the realloc-based growth of the array is unobservable and is not
  modelled).
* Each `fprintf` call of the emitter is one `String` element of the output
  list; the emitted file contents are the concatenation of that list.
* `error()` followed by `exit(1)` is modelled by returning an `Except` value
  together with the output that was already flushed before the error.
* The `while (src->position < src->length)` loop of `compile` is modelled by
  `compile_loop` with an iteration budget (`fuel`); each loop iteration
  consumes one unit.  `compile` runs it with fuel `code.length`, which is
  sufficient because every iteration advances the position by at least one
  (this sufficiency is proved, see the termination theorem for claim C9).
-/

deriving instance DecidableEq for Except

namespace Bfc

/-- The two structural compilation errors of `bfc.c`: `error("Unmatched ']'")`
raised by `pop_loop`, and `error("Unmatched '['")` raised at end of stream. -/
inductive CErr where
  | unmatchedClose
  | unmatchedOpen
deriving DecidableEq, Repr

/-- The compiler state of `bfc.c` (`label_counter`, `loop_stack` with
`loop_stack_top`).  The stack top is the head of the list. -/
structure Compiler where
  label_counter : Nat
  loop_stack : List Nat
deriving DecidableEq, Repr

/-- `create_compiler`: `label_counter = 0`, empty loop stack. -/
def create_compiler : Compiler := { label_counter := 0, loop_stack := [] }

/-- `push_loop`: `c->loop_stack[++c->loop_stack_top] = label`. -/
def push_loop (c : Compiler) (label : Nat) : Compiler :=
  { c with loop_stack := label :: c.loop_stack }

/-- `pop_loop`: returns `none` when `loop_stack_top < 0` (the C code calls
`error("Unmatched ']'")` there), otherwise the top label and the popped state. -/
def pop_loop (c : Compiler) : Option (Nat × Compiler) :=
  match c.loop_stack with
  | [] => none
  | label :: rest => some (label, { c with loop_stack := rest })

/-- `next_label`: `return c->label_counter++`. -/
def next_label (c : Compiler) : Nat × Compiler :=
  (c.label_counter, { c with label_counter := c.label_counter + 1 })

/-- `MEMORY_SIZE` from `bfc.c`. -/
def MEMORY_SIZE : Nat := 30000

/-- Decimal rendering of a nonnegative integer, as `%d` prints it.  The first
argument is an iteration budget; `natDec` passes `n` itself, which is ample
since the number of digits of `n` is at most `n`. -/
def natDecAux : Nat → Nat → List Char
  | 0, n => [Nat.digitChar n]
  | fuel + 1, n =>
    if n < 10 then [Nat.digitChar n]
    else natDecAux fuel (n / 10) ++ [Nat.digitChar (n % 10)]

/-- The text `%d` produces for a nonnegative argument. -/
def natDec (n : Nat) : String := ⟨natDecAux n n⟩

/-- Reads a decimal digit string back; left inverse of `natDec`. -/
def unDecData (l : List Char) : Nat :=
  l.foldl (fun acc ch => acc * 10 + (ch.toNat - 48)) 0

/-- The eight Brainfuck instruction characters, in the order of the C string
literal `"+-><.,[]"`. -/
def is_instruction (ch : Char) : Bool :=
  ch = '+' || ch = '-' || ch = '>' || ch = '<' ||
  ch = '.' || ch = ',' || ch = '[' || ch = ']'

/-- The test `strchr("+-><.,[]", ch)` of `compile`.  `strchr` also scans the
terminating NUL of the literal, so the NUL byte passes this check even though
it is not one of the eight instruction characters. -/
def strchr_bf (ch : Char) : Bool :=
  ch = '+' || ch = '-' || ch = '>' || ch = '<' ||
  ch = '.' || ch = ',' || ch = '[' || ch = ']' || ch = Char.ofNat 0

/-- The four repeatable instructions of the folding condition in
`compile_optimized`: `instruction == '+' || instruction == '-' ||
instruction == '>' || instruction == '<'`. -/
def is_foldable (ch : Char) : Bool :=
  ch = '+' || ch = '-' || ch = '>' || ch = '<'

/-- Length of the run of `instruction` at the front of a byte list: the loop
body of `count_repeats` (`while (pos < src->length && src->code[pos] ==
instruction) { count++; pos++; }`). -/
def run_len (instruction : Char) : List Char → Nat
  | [] => 0
  | b :: l => if b = instruction then run_len instruction l + 1 else 0

/-- `count_repeats`: counts the run of `instruction` starting at
`src->position`. -/
def count_repeats (code : List Char) (pos : Nat) (instruction : Char) : Nat :=
  run_len instruction (code.drop pos)

/-- Output of `fprintf(c->output, "loop_start_%d:           # [\n", label)`. -/
def start_def_line (label : Nat) : String :=
  "loop_start_" ++ natDec label ++ ":           # [\n"

/-- Output of `fprintf(c->output, "    cmpb $0, (%%r12)\n")`. -/
def cmp_line : String := "    cmpb $0, (%r12)\n"

/-- Output of `fprintf(c->output, "    je loop_end_%d\n\n", label)`. -/
def je_line (label : Nat) : String :=
  "    je loop_end_" ++ natDec label ++ "\n\n"

/-- Output of `fprintf(c->output, "    jne loop_start_%d    # ]\n", label)`. -/
def jne_line (label : Nat) : String :=
  "    jne loop_start_" ++ natDec label ++ "    # ]\n"

/-- Output of `fprintf(c->output, "loop_end_%d:\n\n", label)`. -/
def end_def_line (label : Nat) : String :=
  "loop_end_" ++ natDec label ++ ":\n\n"

/-- The single line `compile_instruction` emits for each of the four
repeatable instructions. -/
def unit_line (instruction : Char) : String :=
  match instruction with
  | '+' => "    incb (%r12)         # +\n"
  | '-' => "    decb (%r12)         # -\n"
  | '>' => "    incq %r12           # >\n"
  | '<' => "    decq %r12           # <\n"
  | _ => ""

/-- `compile_instruction`: the switch over the eight instruction characters.
Returns `none` exactly when the `']'` case calls `pop_loop` on an empty stack
(the C code aborts there before emitting any text for that `']'`).  A byte
that matches no case (in particular the NUL byte, which passes the `strchr`
check in `compile`) falls through the switch: no output, no state change. -/
def compile_instruction (c : Compiler) (instruction : Char) :
    Option (List String × Compiler) :=
  match instruction with
  | '+' => some ([unit_line '+'], c)
  | '-' => some ([unit_line '-'], c)
  | '>' => some ([unit_line '>'], c)
  | '<' => some ([unit_line '<'], c)
  | '.' => some (["    # Output character (.)\n",
                  "    movq $1, %rax       # sys_write\n",
                  "    movq $1, %rdi       # stdout\n",
                  "    movq %r12, %rsi    # buffer\n",
                  "    movq $1, %rdx       # length\n",
                  "    syscall\n\n"], c)
  | ',' => some (["    # Input character (,)\n",
                  "    movq $0, %rax       # sys_read\n",
                  "    movq $0, %rdi       # stdin\n",
                  "    movq %r12, %rsi    # buffer\n",
                  "    movq $1, %rdx       # length\n",
                  "    syscall\n\n"], c)
  | '[' =>
    let p := next_label c
    let c2 := push_loop p.2 p.1
    some ([start_def_line p.1, cmp_line, je_line p.1], c2)
  | ']' =>
    match pop_loop c with
    | none => none
    | some (label, c1) => some ([cmp_line, jne_line label, end_def_line label], c1)
  | _ => some ([], c)

/-- The single folded line of `compile_optimized` for a run of length
`count > 1` of one of the four repeatable instructions. -/
def folded_line (instruction : Char) (count : Nat) : String :=
  match instruction with
  | '+' => "    addb $" ++ natDec count ++ ", (%r12)    # + x" ++ natDec count ++ "\n"
  | '-' => "    subb $" ++ natDec count ++ ", (%r12)    # - x" ++ natDec count ++ "\n"
  | '>' => "    addq $" ++ natDec count ++ ", %r12      # > x" ++ natDec count ++ "\n"
  | '<' => "    subq $" ++ natDec count ++ ", %r12      # < x" ++ natDec count ++ "\n"
  | _ => ""

/-- `compile_optimized`: fold a run of `count > 1` repeatable instructions
into one line and advance the position by `count - 1` (the returned `Nat` is
the amount by which `src->position += count - 1` moves the cursor; the main
loop adds one more).  Otherwise defer to `compile_instruction` with no extra
advance. -/
def compile_optimized (c : Compiler) (code : List Char) (pos : Nat)
    (instruction : Char) : Option (List String × Compiler × Nat) :=
  let count := count_repeats code pos instruction
  if 1 < count ∧ is_foldable instruction = true then
    some ([folded_line instruction count], c, count - 1)
  else
    match compile_instruction c instruction with
    | none => none
    | some (out, c1) => some (out, c1, 0)

/-- The `while (src->position < src->length)` loop of `compile`.  `fuel`
bounds the number of iterations; since every iteration advances `pos` by at
least one, `code.length - pos` iterations always suffice (proved below), and
the `none` (fuel ran out) result never occurs for the fuel `compile` uses.
A `some (out, r)` result carries the text flushed by the loop body and either
the final compiler state or the fatal `Unmatched ']'` error, after which the
C code exits immediately (nothing further is emitted or processed). -/
def compile_loop : Nat → List Char → Compiler → Nat →
    Option (List String × Except CErr Compiler)
  | 0, code, c, pos =>
    if pos < code.length then none else some ([], Except.ok c)
  | fuel + 1, code, c, pos =>
    match code[pos]? with
    | none => some ([], Except.ok c)
    | some ch =>
      if strchr_bf ch then
        match compile_optimized c code pos ch with
        | none => some ([], Except.error CErr.unmatchedClose)
        | some (out, c1, skip) =>
          match compile_loop fuel code c1 (pos + skip + 1) with
          | none => none
          | some (rest, r) => some (out ++ rest, r)
      else compile_loop fuel code c (pos + 1)

/-- `emit_header`: the eight `fprintf` calls of the assembly prologue. -/
def emit_header : List String :=
  ["    .section .data\n",
   "memory:\n",
   "    .zero " ++ natDec MEMORY_SIZE ++ "\n\n",
   "    .section .text\n",
   "    .globl _start\n\n",
   "_start:\n",
   "    # Initialize data pointer in r12\n",
   "    leaq memory(%rip), %r12\n\n"]

/-- `emit_footer`: the four `fprintf` calls of the exit sequence. -/
def emit_footer : List String :=
  ["\n    # Exit program\n",
   "    movq $60, %rax      # sys_exit\n",
   "    xorq %rdi, %rdi    # exit code 0\n",
   "    syscall\n"]

/-- `compile`: header, main loop, unmatched-`[` check, footer.  The result is
the emitted text (one element per `fprintf`) together with either success or
the structural error on which the C code exits.  The final `none` branch is
unreachable: fuel `code.length` is sufficient (proved below). -/
def compile (code : List Char) : List String × Except CErr Unit :=
  match compile_loop code.length code create_compiler 0 with
  | some (body, Except.ok c) =>
    match c.loop_stack with
    | [] => (emit_header ++ body ++ emit_footer, Except.ok ())
    | _ :: _ => (emit_header ++ body, Except.error CErr.unmatchedOpen)
  | some (body, Except.error e) => (emit_header ++ body, Except.error e)
  | none => (emit_header, Except.error CErr.unmatchedOpen)

/-- The text emitted by the main loop of `compile` (without header/footer). -/
def compile_body (code : List Char) : List String :=
  match compile_loop code.length code create_compiler 0 with
  | some (body, _) => body
  | none => []

/-!  The FoldedOp view of the scanner, used to state and prove structural
properties: `scanOps` lists the `(instruction, repeat-count)` pairs exactly as
the main loop of `compile` hands them to the emitter, and `emitOps` replays
the emitter on such a list. -/

/-- The FoldedOp stream of the Scanner/Folder: one `(instruction, count)`
pair per emitter call made by the main loop of `compile`.  Bytes that are not
one of the eight instruction characters produce nothing (the NUL byte, which
passes the `strchr` check but falls through every switch case, also produces
nothing). -/
def scanOps : List Char → List (Char × Nat)
  | [] => []
  | ch :: rest =>
    if is_instruction ch = true then
      if is_foldable ch = true then
        (ch, run_len ch rest + 1) :: scanOps (rest.drop (run_len ch rest))
      else (ch, 1) :: scanOps rest
    else scanOps rest
termination_by l => l.length
decreasing_by
  all_goals simp only [List.length_drop, List.length_cons]
  all_goals omega

/-- The emitter's reaction to one FoldedOp: the folding branch of
`compile_optimized` for counts above one, otherwise `compile_instruction`. -/
def emitOp (c : Compiler) : Char × Nat → Option (List String × Compiler)
  | (ch, n) =>
    if 1 < n ∧ is_foldable ch = true then some ([folded_line ch n], c)
    else compile_instruction c ch

/-- Replays the emitter over a FoldedOp stream, stopping at the first
`Unmatched ']'` error exactly as the exiting C code does. -/
def emitOps (c : Compiler) : List (Char × Nat) → List String × Except CErr Compiler
  | [] => ([], Except.ok c)
  | op :: ops =>
    match emitOp c op with
    | none => ([], Except.error CErr.unmatchedClose)
    | some (out, c1) =>
      let r := emitOps c1 ops
      (out ++ r.1, r.2)

/-- Modelled from the spec (section 3, LoopStack/LoopLabel): the reference
bracket automaton.  Walking the bytes, a `[` pushes the next label from the
monotonic counter, a `]` pops the most recently opened unmatched label (LIFO)
and fails on an empty stack, and every other byte changes nothing.  Returns
the stack of currently-open, not-yet-closed loop labels (innermost first) and
the counter. -/
def spec_open_loops : List Char → List Nat → Nat → Option (List Nat × Nat)
  | [], stack, counter => some (stack, counter)
  | ch :: rest, stack, counter =>
    if ch = '[' then spec_open_loops rest (counter :: stack) (counter + 1)
    else if ch = ']' then
      match stack with
      | [] => none
      | _ :: s => spec_open_loops rest s counter
    else spec_open_loops rest stack counter

/-!  Target-machine semantics of the emitted instruction lines, for the
fold-transparency claims. -/

/-- Machine state for the emitted code: the byte tape addressed through the
pointer register `r12`.  Modelled from the spec (sections 4.2 and 8): cell
arithmetic is 8-bit wraparound (values mod 256), pointer movement is exact
integer arithmetic. -/
structure MState where
  tape : Int → Int
  ptr : Int

/-- Writes the byte at the current pointer address. -/
def writeCell (s : MState) (v : Int) : MState :=
  { s with tape := fun i => if i = s.ptr then v else s.tape i }

/-- Modelled from the spec: semantics of the single-step lines emitted by
`compile_instruction` for the four repeatable instructions —
`incb (%r12)`, `decb (%r12)` (one-byte cell, mod 256), and
`incq %r12`, `decq %r12` (pointer register). -/
def unit_step (instruction : Char) (s : MState) : MState :=
  match instruction with
  | '+' => writeCell s ((s.tape s.ptr + 1) % 256)
  | '-' => writeCell s ((s.tape s.ptr - 1) % 256)
  | '>' => { s with ptr := s.ptr + 1 }
  | '<' => { s with ptr := s.ptr - 1 }
  | _ => s

/-- Modelled from the spec: semantics of the folded lines emitted by
`compile_optimized` — `addb $n, (%r12)`, `subb $n, (%r12)` (one-byte cell,
mod 256) and `addq $n, %r12`, `subq $n, %r12` (pointer register). -/
def folded_step (instruction : Char) (n : Nat) (s : MState) : MState :=
  match instruction with
  | '+' => writeCell s ((s.tape s.ptr + n) % 256)
  | '-' => writeCell s ((s.tape s.ptr - n) % 256)
  | '>' => { s with ptr := s.ptr + n }
  | '<' => { s with ptr := s.ptr - n }
  | _ => s

/-- Modelled from the spec: semantics of the one line the emitter produces
for a maximal run of length `n` of a repeatable instruction — the folded
add/sub line when `n > 1`, the single-step inc/dec line when `n = 1`. -/
def emitted_run_step (instruction : Char) (n : Nat) : MState → MState :=
  if 1 < n then folded_step instruction n else unit_step instruction

/-!  Noise insertion, for the inert-bytes claims. -/

/-- An insertion position between original bytes does not split a folding
run: the original byte right before the position (if any) and the original
byte right after it (if any) are not the same repeatable instruction. -/
def okPoint (prev : Option Char) (xs : List Char) : Prop :=
  ∀ ch, prev = some ch → xs.head? = some ch → is_foldable ch = false

/-- `NI P prev xs ys`: `ys` is `xs` with extra non-instruction bytes
(each satisfying `P`) inserted, none of them strictly inside a run of
identical repeatable instruction bytes of `xs`.  `prev` is the original byte
immediately preceding these suffixes (used to detect run splits). -/
inductive NI (P : Char → Prop) : Option Char → List Char → List Char → Prop where
  | nil (prev : Option Char) : NI P prev [] []
  | keep {prev : Option Char} {xs ys : List Char} (ch : Char) :
      NI P (some ch) xs ys → NI P prev (ch :: xs) (ch :: ys)
  | noise {prev : Option Char} {xs ys : List Char} (b : Char) :
      P b → is_instruction b = false → okPoint prev xs →
      NI P prev xs ys → NI P prev xs (b :: ys)

/-! ### Decimal rendering: `natDec` renders like `%d` and is injective -/

theorem digitChar_toNat {d : Nat} (h : d < 10) : (Nat.digitChar d).toNat = 48 + d := by
  interval_cases d <;> rfl

theorem unDecData_append_singleton (l : List Char) (ch : Char) :
    unDecData (l ++ [ch]) = unDecData l * 10 + (ch.toNat - 48) := by
  simp [unDecData, List.foldl_append]

theorem unDecData_natDecAux : ∀ {fuel n : Nat}, n ≤ fuel →
    unDecData (natDecAux fuel n) = n := by
  intro fuel
  induction fuel with
  | zero =>
    intro n h
    have hn : n = 0 := Nat.le_zero.mp h
    subst hn
    rfl
  | succ fuel ih =>
    intro n h
    rw [natDecAux]
    by_cases h10 : n < 10
    · rw [if_pos h10]
      show unDecData [Nat.digitChar n] = n
      simp [unDecData, digitChar_toNat h10]
    · rw [if_neg h10]
      rw [unDecData_append_singleton, ih (by omega)]
      rw [digitChar_toNat (Nat.mod_lt _ (by norm_num))]
      omega

theorem unDecData_natDec (n : Nat) : unDecData (natDec n).data = n :=
  unDecData_natDecAux le_rfl

theorem natDec_inj {m n : Nat} (h : natDec m = natDec n) : m = n := by
  have h2 := congrArg (fun s => unDecData s.data) h
  simpa [unDecData_natDec] using h2

/-! ### Character classes -/

theorem foldable_cases {ch : Char} (h : is_foldable ch = true) :
    ch = '+' ∨ ch = '-' ∨ ch = '>' ∨ ch = '<' := by
  simp only [is_foldable, Bool.or_eq_true, decide_eq_true_eq] at h
  tauto

theorem foldable_instr {ch : Char} (h : is_foldable ch = true) :
    is_instruction ch = true := by
  rcases foldable_cases h with rfl | rfl | rfl | rfl <;> rfl

theorem instr_cases {ch : Char} (h : is_instruction ch = true) :
    ch = '+' ∨ ch = '-' ∨ ch = '>' ∨ ch = '<' ∨
    ch = '.' ∨ ch = ',' ∨ ch = '[' ∨ ch = ']' := by
  simp only [is_instruction, Bool.or_eq_true, decide_eq_true_eq] at h
  tauto

theorem instr_strchr {ch : Char} (h : is_instruction ch = true) :
    strchr_bf ch = true := by
  rcases instr_cases h with rfl | rfl | rfl | rfl | rfl | rfl | rfl | rfl <;> rfl

theorem strchr_cases {ch : Char} (h : strchr_bf ch = true) :
    is_instruction ch = true ∨ ch = Char.ofNat 0 := by
  simp only [strchr_bf, Bool.or_eq_true, decide_eq_true_eq] at h
  simp only [is_instruction, Bool.or_eq_true, decide_eq_true_eq]
  tauto

theorem bracket_not_foldable_open : is_foldable '[' = false := rfl

theorem bracket_not_foldable_close : is_foldable ']' = false := rfl

/-! ### Run lengths -/

theorem run_len_le_length (ch : Char) : ∀ l : List Char, run_len ch l ≤ l.length := by
  intro l
  induction l with
  | nil => simp [run_len]
  | cons b t ih =>
    rw [run_len]
    by_cases hb : b = ch
    · rw [if_pos hb]
      simpa using ih
    · rw [if_neg hb]
      simp

theorem run_len_cons_self (ch : Char) (l : List Char) :
    run_len ch (ch :: l) = run_len ch l + 1 := by
  simp [run_len]

theorem run_len_cons_ne {b ch : Char} (h : ¬b = ch) (l : List Char) :
    run_len ch (b :: l) = 0 := by
  simp [run_len, h]

theorem run_len_eq_zero {ch : Char} {l : List Char} (h : l.head? ≠ some ch) :
    run_len ch l = 0 := by
  cases l with
  | nil => rfl
  | cons b t =>
    apply run_len_cons_ne
    intro hb
    exact h (by simp [hb])

theorem run_len_getElem? {ch : Char} : ∀ {l : List Char} {i : Nat},
    i < run_len ch l → l[i]? = some ch := by
  intro l
  induction l with
  | nil => intro i h; simp [run_len] at h
  | cons b t ih =>
    intro i h
    rw [run_len] at h
    by_cases hb : b = ch
    · rw [if_pos hb] at h
      cases i with
      | zero => simp [hb]
      | succ j =>
        have : j < run_len ch t := by omega
        simpa using ih this
    · rw [if_neg hb] at h
      omega

theorem run_len_max (ch : Char) : ∀ l : List Char, l[run_len ch l]? ≠ some ch := by
  intro l
  induction l with
  | nil => simp [run_len]
  | cons b t ih =>
    rw [run_len]
    by_cases hb : b = ch
    · rw [if_pos hb]
      simpa using ih
    · rw [if_neg hb]
      simp
      intro h
      exact hb h

theorem take_run_len (ch : Char) : ∀ l : List Char,
    l.take (run_len ch l) = List.replicate (run_len ch l) ch := by
  intro l
  induction l with
  | nil => simp [run_len]
  | cons b t ih =>
    rw [run_len]
    by_cases hb : b = ch
    · rw [if_pos hb]
      simp [List.replicate_succ, hb, ih]
    · rw [if_neg hb]
      simp

theorem run_len_append (ch : Char) : ∀ a b : List Char,
    run_len ch (a ++ b) =
      if run_len ch a = a.length then a.length + run_len ch b else run_len ch a := by
  intro a b
  induction a with
  | nil => simp [run_len]
  | cons x t ih =>
    by_cases hx : x = ch
    · rw [List.cons_append, hx, run_len_cons_self, run_len_cons_self, ih]
      by_cases ht : run_len ch t = t.length
      · rw [if_pos ht, if_pos (by simp [ht]), List.length_cons]
        omega
      · rw [if_neg ht, if_neg (by simp only [List.length_cons]; omega)]
    · rw [List.cons_append, run_len_cons_ne hx, run_len_cons_ne hx]
      rw [if_neg (by simp)]

/-! ### `scanOps` unfolding equations -/

theorem scanOps_nil : scanOps [] = [] := by
  rw [scanOps]

theorem scanOps_noise {ch : Char} (h : is_instruction ch = false) (l : List Char) :
    scanOps (ch :: l) = scanOps l := by
  rw [scanOps, h]
  simp

theorem scanOps_nonfold {ch : Char} (hi : is_instruction ch = true)
    (hf : is_foldable ch = false) (l : List Char) :
    scanOps (ch :: l) = (ch, 1) :: scanOps l := by
  rw [scanOps, hi, hf]
  simp

theorem scanOps_fold {ch : Char} (hf : is_foldable ch = true) (l : List Char) :
    scanOps (ch :: l) =
      (ch, run_len ch l + 1) :: scanOps (l.drop (run_len ch l)) := by
  rw [scanOps, foldable_instr hf, hf]
  simp

/-! ### Emitted-line discrimination and injectivity -/

theorem ne_of_data0 {s t : String} (h : s.data[0]? ≠ t.data[0]?) : s ≠ t :=
  fun e => h (congrArg (fun u => u.data[0]?) e)

theorem ne_of_data5 {s t : String} (h : s.data[5]? ≠ t.data[5]?) : s ≠ t :=
  fun e => h (congrArg (fun u => u.data[5]?) e)

theorem start_def_line_data0 (n : Nat) : (start_def_line n).data[0]? = some 'l' := rfl

theorem start_def_line_data5 (n : Nat) : (start_def_line n).data[5]? = some 's' := rfl

theorem end_def_line_data0 (n : Nat) : (end_def_line n).data[0]? = some 'l' := rfl

theorem end_def_line_data5 (n : Nat) : (end_def_line n).data[5]? = some 'e' := rfl

theorem je_line_data0 (n : Nat) : (je_line n).data[0]? = some ' ' := rfl

theorem jne_line_data0 (n : Nat) : (jne_line n).data[0]? = some ' ' := rfl

theorem folded_line_data0 {ch : Char} (h : is_foldable ch = true) (n : Nat) :
    (folded_line ch n).data[0]? = some ' ' := by
  rcases foldable_cases h with rfl | rfl | rfl | rfl <;> rfl

theorem unit_line_data0 {ch : Char} (h : is_foldable ch = true) :
    (unit_line ch).data[0]? = some ' ' := by
  rcases foldable_cases h with rfl | rfl | rfl | rfl <;> rfl

theorem start_def_line_inj {m n : Nat} (h : start_def_line m = start_def_line n) :
    m = n := by
  have hd := congrArg String.data h
  simp only [start_def_line, String.data_append, List.append_cancel_left_eq,
    List.append_cancel_right_eq] at hd
  exact natDec_inj (String.ext hd)

theorem end_def_line_inj {m n : Nat} (h : end_def_line m = end_def_line n) :
    m = n := by
  have hd := congrArg String.data h
  simp only [end_def_line, String.data_append, List.append_cancel_left_eq,
    List.append_cancel_right_eq] at hd
  exact natDec_inj (String.ext hd)

theorem start_ne_end (m n : Nat) : start_def_line m ≠ end_def_line n := by
  apply ne_of_data5
  rw [start_def_line_data5, end_def_line_data5]
  decide

/-! ### `compile_optimized` and `emitOp` case lemmas -/

theorem compile_optimized_fold {c : Compiler} {code : List Char} {pos : Nat} {ch : Char}
    (hf : is_foldable ch = true) (hc : 1 < count_repeats code pos ch) :
    compile_optimized c code pos ch =
      some ([folded_line ch (count_repeats code pos ch)], c,
        count_repeats code pos ch - 1) := by
  simp [compile_optimized, hf, hc]

theorem compile_optimized_unit {c : Compiler} {code : List Char} {pos : Nat} {ch : Char}
    (h : ¬(1 < count_repeats code pos ch ∧ is_foldable ch = true)) :
    compile_optimized c code pos ch =
      match compile_instruction c ch with
      | none => none
      | some (out, c1) => some (out, c1, 0) := by
  simp only [compile_optimized]
  rw [if_neg h]

theorem emitOp_fold {c : Compiler} {ch : Char} {n : Nat}
    (hf : is_foldable ch = true) (hn : 1 < n) :
    emitOp c (ch, n) = some ([folded_line ch n], c) := by
  simp [emitOp, hf, hn]

theorem emitOp_unit {c : Compiler} {ch : Char} {n : Nat}
    (h : ¬(1 < n ∧ is_foldable ch = true)) :
    emitOp c (ch, n) = compile_instruction c ch := by
  simp only [emitOp]
  rw [if_neg h]

theorem compile_instruction_foldable {ch : Char} (hf : is_foldable ch = true)
    (c : Compiler) : compile_instruction c ch = some ([unit_line ch], c) := by
  rcases foldable_cases hf with rfl | rfl | rfl | rfl <;> rfl

theorem compile_instruction_nul (c : Compiler) :
    compile_instruction c (Char.ofNat 0) = some ([], c) := rfl

/-! ### The main loop replays the emitter on the FoldedOp stream -/


theorem pop_loop_nil {c : Compiler} (h : c.loop_stack = []) : pop_loop c = none := by
  simp [pop_loop, h]

theorem pop_loop_cons {c : Compiler} {label : Nat} {rest : List Nat}
    (h : c.loop_stack = label :: rest) :
    pop_loop c = some (label, { c with loop_stack := rest }) := by
  simp [pop_loop, h]

theorem compile_instruction_dot (c : Compiler) :
    compile_instruction c '.' =
      some (["    # Output character (.)\n",
             "    movq $1, %rax       # sys_write\n",
             "    movq $1, %rdi       # stdout\n",
             "    movq %r12, %rsi    # buffer\n",
             "    movq $1, %rdx       # length\n",
             "    syscall\n\n"], c) := rfl

theorem compile_instruction_comma (c : Compiler) :
    compile_instruction c ',' =
      some (["    # Input character (,)\n",
             "    movq $0, %rax       # sys_read\n",
             "    movq $0, %rdi       # stdin\n",
             "    movq %r12, %rsi    # buffer\n",
             "    movq $1, %rdx       # length\n",
             "    syscall\n\n"], c) := rfl

theorem compile_instruction_open (c : Compiler) :
    compile_instruction c '[' =
      some ([start_def_line c.label_counter, cmp_line, je_line c.label_counter],
        { label_counter := c.label_counter + 1,
          loop_stack := c.label_counter :: c.loop_stack }) := rfl

theorem compile_instruction_close (c : Compiler) :
    compile_instruction c ']' =
      match pop_loop c with
      | none => none
      | some (label, c1) =>
        some ([cmp_line, jne_line label, end_def_line label], c1) := rfl

theorem compile_loop_eq : ∀ (fuel : Nat) (code : List Char) (c : Compiler) (pos : Nat),
    code.length - pos ≤ fuel →
    compile_loop fuel code c pos = some (emitOps c (scanOps (code.drop pos))) := by
  intro fuel
  induction fuel with
  | zero =>
    intro code c pos h
    have hp : ¬pos < code.length := by omega
    rw [compile_loop, if_neg hp, List.drop_eq_nil_of_le (by omega), scanOps_nil]
    rfl
  | succ fuel ih =>
    intro code c pos h
    rw [compile_loop]
    cases hg : code[pos]? with
    | none =>
      rw [List.drop_eq_nil_of_le (List.getElem?_eq_none_iff.mp hg), scanOps_nil]
      rfl
    | some ch =>
      obtain ⟨hp, hv⟩ := List.getElem?_eq_some_iff.mp hg
      have hdrop : code.drop pos = ch :: code.drop (pos + 1) := by
        rw [List.drop_eq_getElem_cons hp, hv]
      change (if strchr_bf ch = true then _ else _) = _
      by_cases hs : strchr_bf ch
      · rw [if_pos hs]
        by_cases hf : is_foldable ch = true
        · -- one of the four repeatable instructions
          have hcount : count_repeats code pos ch =
              run_len ch (code.drop (pos + 1)) + 1 := by
            rw [count_repeats, hdrop, run_len_cons_self]
          by_cases hk : 0 < run_len ch (code.drop (pos + 1))
          · -- a run of length at least two: the folding branch
            have hrec : compile_loop fuel code c
                (pos + run_len ch (code.drop (pos + 1)) + 1) =
                some (emitOps c (scanOps (code.drop
                  (pos + run_len ch (code.drop (pos + 1)) + 1)))) :=
              ih code c _ (by omega)
            have hdd : (code.drop (pos + 1)).drop (run_len ch (code.drop (pos + 1))) =
                code.drop (pos + run_len ch (code.drop (pos + 1)) + 1) := by
              rw [List.drop_drop]
              congr 1
              omega
            rw [compile_optimized_fold hf (by omega), hcount]
            simp only [Nat.add_sub_cancel]
            rw [hdrop, scanOps_fold hf, hdd]
            rw [emitOps, emitOp_fold hf (by omega)]
            simp only [hrec]
          · -- a run of length exactly one
            have hk0 : run_len ch (code.drop (pos + 1)) = 0 := by omega
            have hrec : compile_loop fuel code c (pos + 1) =
                some (emitOps c (scanOps (code.drop (pos + 1)))) :=
              ih code c _ (by omega)
            rw [compile_optimized_unit (by omega), compile_instruction_foldable hf]
            rw [hdrop, scanOps_fold hf, hk0, List.drop_zero]
            rw [emitOps, emitOp_unit (by simp), compile_instruction_foldable hf]
            simp only [Nat.add_zero, hrec]
        · rcases strchr_cases hs with hi | hnul
          · -- '.', ',', '[' or ']'
            have hnf : is_foldable ch = false := by
              cases hfv : is_foldable ch
              · rfl
              · exact absurd hfv hf
            have hnofold : ¬(1 < count_repeats code pos ch ∧
                is_foldable ch = true) := by
              rw [hnf]
              simp
            have hnofold1 : ¬(1 < 1 ∧ is_foldable ch = true) := by
              simp
            rcases instr_cases hi with rfl | rfl | rfl | rfl | rfl | rfl | rfl | rfl
            · exact absurd rfl hf
            · exact absurd rfl hf
            · exact absurd rfl hf
            · exact absurd rfl hf
            · -- '.'
              have hrec : compile_loop fuel code c (pos + 1) =
                  some (emitOps c (scanOps (code.drop (pos + 1)))) :=
                ih code c _ (by omega)
              rw [compile_optimized_unit hnofold, compile_instruction_dot]
              rw [hdrop, scanOps_nonfold hi hnf]
              rw [emitOps, emitOp_unit hnofold1, compile_instruction_dot]
              simp only [Nat.add_zero, hrec]
            · -- ','
              have hrec : compile_loop fuel code c (pos + 1) =
                  some (emitOps c (scanOps (code.drop (pos + 1)))) :=
                ih code c _ (by omega)
              rw [compile_optimized_unit hnofold, compile_instruction_comma]
              rw [hdrop, scanOps_nonfold hi hnf]
              rw [emitOps, emitOp_unit hnofold1, compile_instruction_comma]
              simp only [Nat.add_zero, hrec]
            · -- '['
              have hrec : compile_loop fuel code
                  { label_counter := c.label_counter + 1,
                    loop_stack := c.label_counter :: c.loop_stack } (pos + 1) =
                  some (emitOps
                    { label_counter := c.label_counter + 1,
                      loop_stack := c.label_counter :: c.loop_stack }
                    (scanOps (code.drop (pos + 1)))) :=
                ih code _ _ (by omega)
              rw [compile_optimized_unit hnofold, compile_instruction_open]
              rw [hdrop, scanOps_nonfold hi hnf]
              rw [emitOps, emitOp_unit hnofold1, compile_instruction_open]
              simp only [Nat.add_zero, hrec]
            · -- ']'
              cases hstack : c.loop_stack with
              | nil =>
                rw [compile_optimized_unit hnofold, compile_instruction_close,
                  pop_loop_nil hstack]
                rw [hdrop, scanOps_nonfold hi hnf]
                rw [emitOps, emitOp_unit hnofold1, compile_instruction_close,
                  pop_loop_nil hstack]
              | cons label rest =>
                have hrec : compile_loop fuel code
                    { c with loop_stack := rest } (pos + 1) =
                    some (emitOps { c with loop_stack := rest }
                      (scanOps (code.drop (pos + 1)))) :=
                  ih code _ _ (by omega)
                rw [compile_optimized_unit hnofold, compile_instruction_close,
                  pop_loop_cons hstack]
                rw [hdrop, scanOps_nonfold hi hnf]
                rw [emitOps, emitOp_unit hnofold1, compile_instruction_close,
                  pop_loop_cons hstack]
                simp only [Nat.add_zero, hrec]
          · -- the NUL byte: passes strchr, falls through the switch
            subst hnul
            have hrec : compile_loop fuel code c (pos + 1) =
                some (emitOps c (scanOps (code.drop (pos + 1)))) :=
              ih code c _ (by omega)
            rw [compile_optimized_unit (by simp [is_foldable]),
              compile_instruction_nul]
            rw [hdrop, scanOps_noise (by rfl)]
            simp only [Nat.add_zero, hrec]
            simp
      · -- not an instruction byte: skipped without any call into the emitter
        rw [if_neg hs]
        have hni : is_instruction ch = false := by
          cases hiv : is_instruction ch
          · rfl
          · exact absurd (instr_strchr hiv) hs
        rw [ih code c (pos + 1) (by omega), hdrop, scanOps_noise hni]


/-! ### `compile` in terms of the FoldedOp replay -/

theorem compile_of_ok {code : List Char} {c : Compiler}
    (h : (emitOps create_compiler (scanOps code)).2 = Except.ok c)
    (hs : c.loop_stack = []) :
    compile code =
      (emit_header ++ (emitOps create_compiler (scanOps code)).1 ++ emit_footer,
        Except.ok ()) := by
  rw [compile, compile_loop_eq code.length code create_compiler 0 (by omega),
    List.drop_zero]
  rcases he : emitOps create_compiler (scanOps code) with ⟨body, r⟩
  rw [he] at h
  simp only at h
  subst h
  simp [hs]

theorem compile_of_open {code : List Char} {c : Compiler}
    (h : (emitOps create_compiler (scanOps code)).2 = Except.ok c)
    {label : Nat} {ls : List Nat} (hs : c.loop_stack = label :: ls) :
    compile code =
      (emit_header ++ (emitOps create_compiler (scanOps code)).1,
        Except.error CErr.unmatchedOpen) := by
  rw [compile, compile_loop_eq code.length code create_compiler 0 (by omega),
    List.drop_zero]
  rcases he : emitOps create_compiler (scanOps code) with ⟨body, r⟩
  rw [he] at h
  simp only at h
  subst h
  simp [hs]

theorem compile_of_err {code : List Char} {e : CErr}
    (h : (emitOps create_compiler (scanOps code)).2 = Except.error e) :
    compile code =
      (emit_header ++ (emitOps create_compiler (scanOps code)).1,
        Except.error e) := by
  rw [compile, compile_loop_eq code.length code create_compiler 0 (by omega),
    List.drop_zero]
  rcases he : emitOps create_compiler (scanOps code) with ⟨body, r⟩
  rw [he] at h
  simp only at h
  subst h
  simp

theorem compile_body_eq (code : List Char) :
    compile_body code = (emitOps create_compiler (scanOps code)).1 := by
  rw [compile_body, compile_loop_eq code.length code create_compiler 0 (by omega),
    List.drop_zero]

theorem compile_congr {xs ys : List Char} (h : scanOps xs = scanOps ys) :
    compile xs = compile ys := by
  rw [compile, compile,
    compile_loop_eq xs.length xs create_compiler 0 (by omega),
    compile_loop_eq ys.length ys create_compiler 0 (by omega),
    List.drop_zero, List.drop_zero, h]

/-! ### The specification bracket automaton -/

theorem spec_nil (s : List Nat) (k : Nat) :
    spec_open_loops [] s k = some (s, k) := rfl

theorem spec_open (l : List Char) (s : List Nat) (k : Nat) :
    spec_open_loops ('[' :: l) s k = spec_open_loops l (k :: s) (k + 1) := by
  simp [spec_open_loops]

theorem spec_close_nil (l : List Char) (k : Nat) :
    spec_open_loops (']' :: l) [] k = none := by
  simp [spec_open_loops]

theorem spec_close_cons (l : List Char) (m : Nat) (s : List Nat) (k : Nat) :
    spec_open_loops (']' :: l) (m :: s) k = spec_open_loops l s k := by
  simp [spec_open_loops]

theorem spec_other {ch : Char} (h1 : ¬ch = '[') (h2 : ¬ch = ']')
    (l : List Char) (s : List Nat) (k : Nat) :
    spec_open_loops (ch :: l) s k = spec_open_loops l s k := by
  simp [spec_open_loops, h1, h2]

theorem foldable_ne_open {ch : Char} (hf : is_foldable ch = true) : ¬ch = '[' := by
  rcases foldable_cases hf with rfl | rfl | rfl | rfl <;> decide

theorem foldable_ne_close {ch : Char} (hf : is_foldable ch = true) : ¬ch = ']' := by
  rcases foldable_cases hf with rfl | rfl | rfl | rfl <;> decide

theorem noise_ne_open {ch : Char} (h : is_instruction ch = false) : ¬ch = '[' := by
  intro he
  subst he
  exact absurd h (by decide)

theorem noise_ne_close {ch : Char} (h : is_instruction ch = false) : ¬ch = ']' := by
  intro he
  subst he
  exact absurd h (by decide)

theorem spec_replicate {ch : Char} (h1 : ¬ch = '[') (h2 : ¬ch = ']') :
    ∀ (m : Nat) (l : List Char) (s : List Nat) (k : Nat),
    spec_open_loops (List.replicate m ch ++ l) s k = spec_open_loops l s k := by
  intro m
  induction m with
  | zero => intro l s k; rfl
  | succ m ih =>
    intro l s k
    rw [List.replicate_succ, List.cons_append, spec_other h1 h2, ih]

theorem spec_append : ∀ (a b : List Char) (s : List Nat) (k : Nat),
    spec_open_loops (a ++ b) s k =
      match spec_open_loops a s k with
      | none => none
      | some (s1, k1) => spec_open_loops b s1 k1 := by
  intro a
  induction a with
  | nil => intro b s k; rfl
  | cons ch rest ih =>
    intro b s k
    by_cases h1 : ch = '['
    · subst h1
      rw [List.cons_append, spec_open, spec_open, ih]
    · by_cases h2 : ch = ']'
      · subst h2
        cases s with
        | nil => rw [List.cons_append, spec_close_nil, spec_close_nil]
        | cons m s1 =>
          rw [List.cons_append, spec_close_cons, spec_close_cons, ih]
      · rw [List.cons_append, spec_other h1 h2, spec_other h1 h2, ih]

theorem spec_counter : ∀ (l : List Char) (s : List Nat) (k : Nat)
    (s1 : List Nat) (k1 : Nat), spec_open_loops l s k = some (s1, k1) →
    k1 = k + l.count '[' := by
  intro l
  induction l with
  | nil =>
    intro s k s1 k1 h
    rw [spec_nil] at h
    simp at h
    simp [h.2]
  | cons ch rest ih =>
    intro s k s1 k1 h
    by_cases h1 : ch = '['
    · subst h1
      rw [spec_open] at h
      have := ih _ _ _ _ h
      rw [List.count_cons] at *
      simp at *
      omega
    · by_cases h2 : ch = ']'
      · subst h2
        cases s with
        | nil => rw [spec_close_nil] at h; exact absurd h (by simp)
        | cons m s2 =>
          rw [spec_close_cons] at h
          have := ih _ _ _ _ h
          rw [List.count_cons]
          simp [this]
      · rw [spec_other h1 h2] at h
        have := ih _ _ _ _ h
        rw [List.count_cons]
        simp [this, h1]

theorem spec_depth : ∀ (l : List Char) (s : List Nat) (k : Nat)
    (s1 : List Nat) (k1 : Nat), spec_open_loops l s k = some (s1, k1) →
    s1.length + l.count ']' = s.length + l.count '[' := by
  intro l
  induction l with
  | nil =>
    intro s k s1 k1 h
    rw [spec_nil] at h
    simp at h
    simp [h.1]
  | cons ch rest ih =>
    intro s k s1 k1 h
    by_cases h1 : ch = '['
    · subst h1
      rw [spec_open] at h
      have := ih _ _ _ _ h
      rw [List.count_cons, List.count_cons]
      simp only [List.length_cons] at this
      simp
      omega
    · by_cases h2 : ch = ']'
      · subst h2
        cases s with
        | nil => rw [spec_close_nil] at h; exact absurd h (by simp)
        | cons m s2 =>
          rw [spec_close_cons] at h
          have := ih _ _ _ _ h
          rw [List.count_cons, List.count_cons]
          simp only [List.length_cons]
          simp
          omega
      · rw [spec_other h1 h2] at h
        have := ih _ _ _ _ h
        rw [List.count_cons, List.count_cons]
        simp [h1, h2]
        omega

/-! ### The emitter state tracks the specification automaton -/

theorem emitOps_scanOps_spec : ∀ (n : Nat) (l : List Char), l.length ≤ n →
    ∀ (c : Compiler),
    (emitOps c (scanOps l)).2 =
      match spec_open_loops l c.loop_stack c.label_counter with
      | none => Except.error CErr.unmatchedClose
      | some (s, k) => Except.ok ⟨k, s⟩ := by
  intro n
  induction n with
  | zero =>
    intro l hl c
    have : l = [] := List.length_eq_zero.mp (by omega)
    subst this
    rw [scanOps_nil, spec_nil]
    rfl
  | succ n ih =>
    intro l hl c
    cases l with
    | nil =>
      rw [scanOps_nil, spec_nil]
      rfl
    | cons ch rest =>
      by_cases hf : is_foldable ch = true
      · -- a repeatable instruction: never touches the stack or the counter
        rw [scanOps_fold hf]
        have hsplit : spec_open_loops (ch :: rest) c.loop_stack c.label_counter =
            spec_open_loops (rest.drop (run_len ch rest)) c.loop_stack
              c.label_counter := by
          rw [spec_other (foldable_ne_open hf) (foldable_ne_close hf)]
          conv_lhs => rw [← List.take_append_drop (run_len ch rest) rest,
            take_run_len]
          rw [spec_replicate (foldable_ne_open hf) (foldable_ne_close hf)]
        rw [hsplit]
        have hrec := ih (rest.drop (run_len ch rest))
          (by simp only [List.length_drop]; simp at hl; omega) c
        by_cases hk : 0 < run_len ch rest
        · rw [emitOps, emitOp_fold hf (by omega)]
          exact hrec
        · have hk0 : run_len ch rest = 0 := by omega
          rw [hk0] at hrec ⊢
          rw [emitOps, emitOp_unit (by simp), compile_instruction_foldable hf]
          exact hrec
      · by_cases hi : is_instruction ch = true
        · have hnf : is_foldable ch = false := by
            cases hfv : is_foldable ch
            · rfl
            · exact absurd hfv hf
          rw [scanOps_nonfold hi hnf, emitOps, emitOp_unit (by simp)]
          rcases instr_cases hi with rfl | rfl | rfl | rfl | rfl | rfl | rfl | rfl
          · exact absurd rfl hf
          · exact absurd rfl hf
          · exact absurd rfl hf
          · exact absurd rfl hf
          · rw [compile_instruction_dot]
            rw [spec_other (by decide) (by decide)]
            exact ih rest (by simp at hl; omega) c
          · rw [compile_instruction_comma]
            rw [spec_other (by decide) (by decide)]
            exact ih rest (by simp at hl; omega) c
          · rw [compile_instruction_open, spec_open]
            exact ih rest (by simp at hl; omega)
              { label_counter := c.label_counter + 1,
                loop_stack := c.label_counter :: c.loop_stack }
          · cases hstack : c.loop_stack with
            | nil =>
              rw [compile_instruction_close, pop_loop_nil hstack, spec_close_nil]
            | cons m s2 =>
              rw [compile_instruction_close, pop_loop_cons hstack,
                spec_close_cons]
              exact ih rest (by simp at hl; omega) { c with loop_stack := s2 }
        · have hni : is_instruction ch = false := by
            cases hiv : is_instruction ch
            · rfl
            · exact absurd hiv hi
          rw [scanOps_noise hni,
            spec_other (noise_ne_open hni) (noise_ne_close hni)]
          exact ih rest (by simp at hl; omega) c


/-! ### Appending FoldedOp streams and byte lists -/

theorem emitOps_append_ok : ∀ (ops1 ops2 : List (Char × Nat)) (c c1 : Compiler),
    (emitOps c ops1).2 = Except.ok c1 →
    emitOps c (ops1 ++ ops2) =
      ((emitOps c ops1).1 ++ (emitOps c1 ops2).1, (emitOps c1 ops2).2) := by
  intro ops1
  induction ops1 with
  | nil =>
    intro ops2 c c1 h
    have h2 : c = c1 := by
      have h3 : (Except.ok c : Except CErr Compiler) = Except.ok c1 := h
      simpa using h3
    subst h2
    rfl
  | cons op ops ih =>
    intro ops2 c c1 h
    cases hop : emitOp c op with
    | none =>
      rw [emitOps, hop] at h
      simp at h
    | some r =>
      obtain ⟨out, c2⟩ := r
      rw [emitOps, hop] at h
      have h2 : (emitOps c2 ops).2 = Except.ok c1 := h
      simp only [List.cons_append, emitOps, hop, List.append_eq]
      rw [ih ops2 c2 c1 h2]
      simp [List.append_assoc]

theorem emitOps_append_err : ∀ (ops1 ops2 : List (Char × Nat)) (c : Compiler)
    (e : CErr), (emitOps c ops1).2 = Except.error e →
    emitOps c (ops1 ++ ops2) = emitOps c ops1 := by
  intro ops1
  induction ops1 with
  | nil =>
    intro ops2 c e h
    have h3 : (Except.ok c : Except CErr Compiler) = Except.error e := h
    simp at h3
  | cons op ops ih =>
    intro ops2 c e h
    cases hop : emitOp c op with
    | none =>
      simp only [List.cons_append, emitOps, hop, List.append_eq]
    | some r =>
      obtain ⟨out, c2⟩ := r
      rw [emitOps, hop] at h
      have h2 : (emitOps c2 ops).2 = Except.error e := h
      simp only [List.cons_append, emitOps, hop, List.append_eq]
      rw [ih ops2 c2 e h2]

theorem scanOps_append : ∀ (n : Nat) (xs ys : List Char), xs.length ≤ n →
    (∀ b, ys.head? = some b → is_foldable b = false) →
    scanOps (xs ++ ys) = scanOps xs ++ scanOps ys := by
  intro n
  induction n with
  | zero =>
    intro xs ys h hy
    have : xs = [] := List.length_eq_zero.mp (by omega)
    subst this
    rw [List.nil_append, scanOps_nil, List.nil_append]
  | succ n ih =>
    intro xs ys h hy
    cases xs with
    | nil => rw [List.nil_append, scanOps_nil, List.nil_append]
    | cons ch rest =>
      by_cases hf : is_foldable ch = true
      · have hys : run_len ch ys = 0 := by
          apply run_len_eq_zero
          intro hhead
          exact absurd (hf.symm.trans (hy ch hhead)) (by decide)
        have hrl : run_len ch (rest ++ ys) = run_len ch rest := by
          rw [run_len_append]
          by_cases hr : run_len ch rest = rest.length
          · rw [if_pos hr, hys]
            omega
          · rw [if_neg hr]
        rw [List.cons_append, scanOps_fold hf, scanOps_fold hf, hrl]
        rw [List.drop_append_of_le_length (run_len_le_length ch rest)]
        rw [ih (rest.drop (run_len ch rest)) ys
          (by simp only [List.length_drop]; simp at h; omega) hy]
        rw [List.cons_append]
      · by_cases hi : is_instruction ch = true
        · have hnf : is_foldable ch = false := by
            cases hfv : is_foldable ch
            · rfl
            · exact absurd hfv hf
          rw [List.cons_append, scanOps_nonfold hi hnf, scanOps_nonfold hi hnf,
            ih rest ys (by simp at h; omega) hy, List.cons_append]
        · have hni : is_instruction ch = false := by
            cases hiv : is_instruction ch
            · rfl
            · exact absurd hiv hi
          rw [List.cons_append, scanOps_noise hni, scanOps_noise hni,
            ih rest ys (by simp at h; omega) hy]

/-! ### The switch default case and counter monotonicity -/

theorem compile_instruction_default {ch : Char} (h : is_instruction ch = false)
    (c : Compiler) : compile_instruction c ch = some ([], c) := by
  have h8 : ¬(ch = '+' ∨ ch = '-' ∨ ch = '>' ∨ ch = '<' ∨
      ch = '.' ∨ ch = ',' ∨ ch = '[' ∨ ch = ']') := by
    intro hc
    have h9 : is_instruction ch = true := by
      simp only [is_instruction, Bool.or_eq_true, decide_eq_true_eq]
      tauto
    rw [h9] at h
    cases h
  rw [compile_instruction.eq_def]
  split
  · exact absurd (by tauto) h8
  · exact absurd (by tauto) h8
  · exact absurd (by tauto) h8
  · exact absurd (by tauto) h8
  · exact absurd (by tauto) h8
  · exact absurd (by tauto) h8
  · exact absurd (by tauto) h8
  · exact absurd (by tauto) h8
  · rfl

theorem compile_instruction_counter : ∀ (c : Compiler) (ch : Char)
    (out : List String) (c2 : Compiler),
    compile_instruction c ch = some (out, c2) →
    c2.label_counter = c.label_counter ∨
      c2.label_counter = c.label_counter + 1 := by
  intro c ch out c2 h
  rw [compile_instruction.eq_def] at h
  split at h
  · simp only [Option.some.injEq, Prod.mk.injEq] at h
    rw [← h.2]
    left
    rfl
  · simp only [Option.some.injEq, Prod.mk.injEq] at h
    rw [← h.2]
    left
    rfl
  · simp only [Option.some.injEq, Prod.mk.injEq] at h
    rw [← h.2]
    left
    rfl
  · simp only [Option.some.injEq, Prod.mk.injEq] at h
    rw [← h.2]
    left
    rfl
  · simp only [Option.some.injEq, Prod.mk.injEq] at h
    rw [← h.2]
    left
    rfl
  · simp only [Option.some.injEq, Prod.mk.injEq] at h
    rw [← h.2]
    left
    rfl
  · simp only [Option.some.injEq, Prod.mk.injEq] at h
    rw [← h.2]
    right
    rfl
  · cases hstack : c.loop_stack with
    | nil =>
      rw [pop_loop_nil hstack] at h
      exact absurd h (by simp)
    | cons m s2 =>
      rw [pop_loop_cons hstack] at h
      simp only [Option.some.injEq, Prod.mk.injEq] at h
      rw [← h.2]
      left
      rfl
  · simp only [Option.some.injEq, Prod.mk.injEq] at h
    rw [← h.2]
    left
    rfl

theorem emitOp_counter : ∀ (c : Compiler) (op : Char × Nat)
    (out : List String) (c2 : Compiler), emitOp c op = some (out, c2) →
    c2.label_counter = c.label_counter ∨
      c2.label_counter = c.label_counter + 1 := by
  intro c op out c2 h
  obtain ⟨ch, n⟩ := op
  by_cases hcond : 1 < n ∧ is_foldable ch = true
  · rw [emitOp_fold hcond.2 hcond.1] at h
    simp only [Option.some.injEq, Prod.mk.injEq] at h
    rw [← h.2]
    left
    rfl
  · rw [emitOp_unit hcond] at h
    exact compile_instruction_counter c ch out c2 h

theorem emitOps_mono : ∀ (ops : List (Char × Nat)) (c c1 : Compiler),
    (emitOps c ops).2 = Except.ok c1 → c.label_counter ≤ c1.label_counter := by
  intro ops
  induction ops with
  | nil =>
    intro c c1 h
    have h3 : (Except.ok c : Except CErr Compiler) = Except.ok c1 := h
    have h4 : c = c1 := by simpa using h3
    rw [h4]
  | cons op ops ih =>
    intro c c1 h
    cases hop : emitOp c op with
    | none =>
      rw [emitOps, hop] at h
      simp at h
    | some r =>
      obtain ⟨out, c2⟩ := r
      rw [emitOps, hop] at h
      have h2 : (emitOps c2 ops).2 = Except.ok c1 := h
      have hc := emitOp_counter c (op.1, op.2) out c2 (by
        rcases op with ⟨a, b⟩
        exact hop)
      have hrest := ih c2 c1 h2
      rcases hc with hc | hc <;> omega


/-! ### Counting loop label lines in emitted chunks -/

theorem ne_start_of_head {s : String} (hs : s.data[0]? ≠ some 'l') (j : Nat) :
    s ≠ start_def_line j := by
  apply ne_of_data0
  rw [start_def_line_data0]
  exact hs

theorem ne_end_of_head {s : String} (hs : s.data[0]? ≠ some 'l') (j : Nat) :
    s ≠ end_def_line j := by
  apply ne_of_data0
  rw [end_def_line_data0]
  exact hs

theorem count_start_nil_of_heads {l : List String}
    (hl : ∀ s ∈ l, s.data[0]? ≠ some 'l') (m : Nat) :
    l.count (start_def_line m) = 0 := by
  rw [List.count_eq_zero]
  intro hmem
  exact hl _ hmem (by rw [start_def_line_data0])

theorem count_end_nil_of_heads {l : List String}
    (hl : ∀ s ∈ l, s.data[0]? ≠ some 'l') (m : Nat) :
    l.count (end_def_line m) = 0 := by
  rw [List.count_eq_zero]
  intro hmem
  exact hl _ hmem (by rw [end_def_line_data0])

theorem count_start_unit (ch : Char) (hf : is_foldable ch = true) (m : Nat) :
    List.count (start_def_line m) [unit_line ch] = 0 := by
  apply count_start_nil_of_heads
  intro s hs
  simp at hs
  rw [hs, unit_line_data0 hf]
  decide

theorem count_end_unit (ch : Char) (hf : is_foldable ch = true) (m : Nat) :
    List.count (end_def_line m) [unit_line ch] = 0 := by
  apply count_end_nil_of_heads
  intro s hs
  simp at hs
  rw [hs, unit_line_data0 hf]
  decide

theorem count_start_folded (ch : Char) (hf : is_foldable ch = true)
    (n m : Nat) : List.count (start_def_line m) [folded_line ch n] = 0 := by
  apply count_start_nil_of_heads
  intro s hs
  simp at hs
  rw [hs, folded_line_data0 hf]
  decide

theorem count_end_folded (ch : Char) (hf : is_foldable ch = true)
    (n m : Nat) : List.count (end_def_line m) [folded_line ch n] = 0 := by
  apply count_end_nil_of_heads
  intro s hs
  simp at hs
  rw [hs, folded_line_data0 hf]
  decide

theorem io_out_heads : ∀ s ∈ ["    # Output character (.)\n",
    "    movq $1, %rax       # sys_write\n",
    "    movq $1, %rdi       # stdout\n",
    "    movq %r12, %rsi    # buffer\n",
    "    movq $1, %rdx       # length\n",
    "    syscall\n\n"], s.data[0]? ≠ some 'l' := by
  intro s hs
  simp at hs
  rcases hs with rfl | rfl | rfl | rfl | rfl | rfl <;> decide

theorem io_in_heads : ∀ s ∈ ["    # Input character (,)\n",
    "    movq $0, %rax       # sys_read\n",
    "    movq $0, %rdi       # stdin\n",
    "    movq %r12, %rsi    # buffer\n",
    "    movq $1, %rdx       # length\n",
    "    syscall\n\n"], s.data[0]? ≠ some 'l' := by
  intro s hs
  simp at hs
  rcases hs with rfl | rfl | rfl | rfl | rfl | rfl <;> decide

theorem header_heads : ∀ s ∈ emit_header, s.data[0]? ≠ some 'l' := by
  intro s hs
  rw [emit_header] at hs
  simp at hs
  rcases hs with rfl | rfl | rfl | rfl | rfl | rfl | rfl | rfl <;> decide

theorem footer_heads : ∀ s ∈ emit_footer, s.data[0]? ≠ some 'l' := by
  intro s hs
  rw [emit_footer] at hs
  simp at hs
  rcases hs with rfl | rfl | rfl | rfl <;> decide

theorem count_start_open_chunks (k m : Nat) :
    List.count (start_def_line m)
      [start_def_line k, cmp_line, je_line k] = if k = m then 1 else 0 := by
  have hrest : List.count (start_def_line m) [cmp_line, je_line k] = 0 := by
    apply count_start_nil_of_heads
    intro s hs
    simp at hs
    rcases hs with rfl | rfl
    · decide
    · rw [je_line_data0]
      decide
  by_cases hkm : k = m
  · subst hkm
    rw [if_pos rfl, List.count_cons_self, hrest]
  · rw [if_neg hkm,
      List.count_cons_of_ne (fun he => hkm (start_def_line_inj he).symm), hrest]

theorem count_end_open_chunks (k m : Nat) :
    List.count (end_def_line m)
      [start_def_line k, cmp_line, je_line k] = 0 := by
  rw [List.count_eq_zero]
  intro hmem
  simp at hmem
  rcases hmem with he | he | he
  · exact start_ne_end k m he.symm
  · exact ne_end_of_head (by decide) m he.symm
  · exact ne_end_of_head (by rw [je_line_data0]; decide) m he.symm

theorem count_start_close_chunks (k m : Nat) :
    List.count (start_def_line m)
      [cmp_line, jne_line k, end_def_line k] = 0 := by
  rw [List.count_eq_zero]
  intro hmem
  simp at hmem
  rcases hmem with he | he | he
  · exact ne_start_of_head (by decide) m he.symm
  · exact ne_start_of_head (by rw [jne_line_data0]; decide) m he.symm
  · exact start_ne_end m k he

theorem count_end_close_chunks (k m : Nat) :
    List.count (end_def_line m)
      [cmp_line, jne_line k, end_def_line k] = if k = m then 1 else 0 := by
  have h1 : end_def_line m ≠ cmp_line :=
    Ne.symm (ne_end_of_head (by decide) m : cmp_line ≠ end_def_line m)
  have h2 : end_def_line m ≠ jne_line k :=
    Ne.symm (ne_end_of_head (by rw [jne_line_data0]; decide) m :
      jne_line k ≠ end_def_line m)
  rw [List.count_cons_of_ne h1, List.count_cons_of_ne h2]
  by_cases hkm : k = m
  · subst hkm
    rw [if_pos rfl, List.count_cons_self]
    rfl
  · rw [if_neg hkm,
      List.count_cons_of_ne (fun he => hkm (end_def_line_inj he).symm)]
    rfl


theorem emitOps_count_start : ∀ (ops : List (Char × Nat)) (c c1 : Compiler),
    (emitOps c ops).2 = Except.ok c1 → ∀ m : Nat,
    (emitOps c ops).1.count (start_def_line m) =
      if c.label_counter ≤ m ∧ m < c1.label_counter then 1 else 0 := by
  intro ops
  induction ops with
  | nil =>
    intro c c1 h m
    have h3 : (Except.ok c : Except CErr Compiler) = Except.ok c1 := h
    have h4 : c = c1 := by simpa using h3
    subst h4
    show List.count (start_def_line m) [] = _
    rw [List.count_nil, if_neg (by omega)]
  | cons op ops ih =>
    intro c c1 h m
    cases hop : emitOp c op with
    | none =>
      rw [emitOps, hop] at h
      simp at h
    | some r =>
      obtain ⟨out, c2⟩ := r
      rw [emitOps, hop] at h
      have h2 : (emitOps c2 ops).2 = Except.ok c1 := h
      have hmono := emitOps_mono ops c2 c1 h2
      have hcount : (emitOps c (op :: ops)).1 = out ++ (emitOps c2 ops).1 := by
        rw [emitOps, hop]
      rw [hcount, List.count_append, ih c2 c1 h2 m]
      obtain ⟨ch, n⟩ := op
      by_cases hcond : 1 < n ∧ is_foldable ch = true
      · rw [emitOp_fold hcond.2 hcond.1] at hop
        simp only [Option.some.injEq, Prod.mk.injEq] at hop
        rw [← hop.1, ← hop.2, count_start_folded ch hcond.2 n m]
        simp
      · rw [emitOp_unit hcond] at hop
        rw [compile_instruction.eq_def] at hop
        split at hop
        · simp only [Option.some.injEq, Prod.mk.injEq] at hop
          rw [← hop.1, ← hop.2, count_start_unit '+' (by decide) m]
          simp
        · simp only [Option.some.injEq, Prod.mk.injEq] at hop
          rw [← hop.1, ← hop.2, count_start_unit '-' (by decide) m]
          simp
        · simp only [Option.some.injEq, Prod.mk.injEq] at hop
          rw [← hop.1, ← hop.2, count_start_unit '>' (by decide) m]
          simp
        · simp only [Option.some.injEq, Prod.mk.injEq] at hop
          rw [← hop.1, ← hop.2, count_start_unit '<' (by decide) m]
          simp
        · simp only [Option.some.injEq, Prod.mk.injEq] at hop
          rw [← hop.1, ← hop.2,
            count_start_nil_of_heads io_out_heads m]
          simp
        · simp only [Option.some.injEq, Prod.mk.injEq] at hop
          rw [← hop.1, ← hop.2,
            count_start_nil_of_heads io_in_heads m]
          simp
        · simp only [next_label, push_loop, Option.some.injEq,
            Prod.mk.injEq] at hop
          rw [← hop.1, count_start_open_chunks c.label_counter m]
          have hc2 : c2.label_counter = c.label_counter + 1 := by
            rw [← hop.2]
          rw [hc2] at hmono ⊢
          split_ifs <;> omega
        · cases hstack : c.loop_stack with
          | nil =>
            rw [pop_loop_nil hstack] at hop
            exact absurd hop (by simp)
          | cons m2 s2 =>
            rw [pop_loop_cons hstack] at hop
            simp only [Option.some.injEq, Prod.mk.injEq] at hop
            rw [← hop.1, ← hop.2, count_start_close_chunks m2 m]
            simp
        · simp only [Option.some.injEq, Prod.mk.injEq] at hop
          rw [← hop.1, ← hop.2, List.count_nil]
          simp

theorem emitOps_count_end : ∀ (ops : List (Char × Nat)) (c c1 : Compiler),
    (emitOps c ops).2 = Except.ok c1 → ∀ m : Nat,
    (emitOps c ops).1.count (end_def_line m) + c1.loop_stack.count m =
      c.loop_stack.count m +
        (if c.label_counter ≤ m ∧ m < c1.label_counter then 1 else 0) := by
  intro ops
  induction ops with
  | nil =>
    intro c c1 h m
    have h3 : (Except.ok c : Except CErr Compiler) = Except.ok c1 := h
    have h4 : c = c1 := by simpa using h3
    subst h4
    show List.count (end_def_line m) [] + _ = _
    rw [List.count_nil, if_neg (by omega)]
    omega
  | cons op ops ih =>
    intro c c1 h m
    cases hop : emitOp c op with
    | none =>
      rw [emitOps, hop] at h
      simp at h
    | some r =>
      obtain ⟨out, c2⟩ := r
      rw [emitOps, hop] at h
      have h2 : (emitOps c2 ops).2 = Except.ok c1 := h
      have hmono := emitOps_mono ops c2 c1 h2
      have hih := ih c2 c1 h2 m
      have hcount : (emitOps c (op :: ops)).1 = out ++ (emitOps c2 ops).1 := by
        rw [emitOps, hop]
      rw [hcount, List.count_append]
      obtain ⟨ch, n⟩ := op
      by_cases hcond : 1 < n ∧ is_foldable ch = true
      · rw [emitOp_fold hcond.2 hcond.1] at hop
        simp only [Option.some.injEq, Prod.mk.injEq] at hop
        have hc2 : c2.label_counter = c.label_counter := by rw [← hop.2]
        have hs2 : c2.loop_stack = c.loop_stack := by rw [← hop.2]
        rw [hc2] at hih hmono
        rw [hs2] at hih
        rw [← hop.1, count_end_folded ch hcond.2 n m]
        omega
      · rw [emitOp_unit hcond] at hop
        rw [compile_instruction.eq_def] at hop
        split at hop
        · simp only [Option.some.injEq, Prod.mk.injEq] at hop
          have hc2 : c2.label_counter = c.label_counter := by rw [← hop.2]
          have hs2 : c2.loop_stack = c.loop_stack := by rw [← hop.2]
          rw [hc2] at hih hmono
          rw [hs2] at hih
          rw [← hop.1, count_end_unit '+' (by decide) m]
          omega
        · simp only [Option.some.injEq, Prod.mk.injEq] at hop
          have hc2 : c2.label_counter = c.label_counter := by rw [← hop.2]
          have hs2 : c2.loop_stack = c.loop_stack := by rw [← hop.2]
          rw [hc2] at hih hmono
          rw [hs2] at hih
          rw [← hop.1, count_end_unit '-' (by decide) m]
          omega
        · simp only [Option.some.injEq, Prod.mk.injEq] at hop
          have hc2 : c2.label_counter = c.label_counter := by rw [← hop.2]
          have hs2 : c2.loop_stack = c.loop_stack := by rw [← hop.2]
          rw [hc2] at hih hmono
          rw [hs2] at hih
          rw [← hop.1, count_end_unit '>' (by decide) m]
          omega
        · simp only [Option.some.injEq, Prod.mk.injEq] at hop
          have hc2 : c2.label_counter = c.label_counter := by rw [← hop.2]
          have hs2 : c2.loop_stack = c.loop_stack := by rw [← hop.2]
          rw [hc2] at hih hmono
          rw [hs2] at hih
          rw [← hop.1, count_end_unit '<' (by decide) m]
          omega
        · simp only [Option.some.injEq, Prod.mk.injEq] at hop
          have hc2 : c2.label_counter = c.label_counter := by rw [← hop.2]
          have hs2 : c2.loop_stack = c.loop_stack := by rw [← hop.2]
          rw [hc2] at hih hmono
          rw [hs2] at hih
          rw [← hop.1, count_end_nil_of_heads io_out_heads m]
          omega
        · simp only [Option.some.injEq, Prod.mk.injEq] at hop
          have hc2 : c2.label_counter = c.label_counter := by rw [← hop.2]
          have hs2 : c2.loop_stack = c.loop_stack := by rw [← hop.2]
          rw [hc2] at hih hmono
          rw [hs2] at hih
          rw [← hop.1, count_end_nil_of_heads io_in_heads m]
          omega
        · simp only [next_label, push_loop, Option.some.injEq,
            Prod.mk.injEq] at hop
          rw [← hop.1, count_end_open_chunks c.label_counter m]
          have hc2 : c2.label_counter = c.label_counter + 1 := by
            rw [← hop.2]
          have hs2 : c2.loop_stack = c.label_counter :: c.loop_stack := by
            rw [← hop.2]
          rw [hc2] at hih hmono
          rw [hs2] at hih
          simp only [List.count_cons, beq_iff_eq] at hih
          split_ifs at hih ⊢ <;> omega
        · cases hstack : c.loop_stack with
          | nil =>
            rw [pop_loop_nil hstack] at hop
            exact absurd hop (by simp)
          | cons m2 s2 =>
            rw [pop_loop_cons hstack] at hop
            simp only [Option.some.injEq, Prod.mk.injEq] at hop
            rw [← hop.1, count_end_close_chunks m2 m]
            have hc2 : c2.label_counter = c.label_counter := by rw [← hop.2]
            have hs2 : c2.loop_stack = s2 := by rw [← hop.2]
            rw [hc2] at hih hmono
            rw [hs2] at hih
            simp only [List.count_cons, beq_iff_eq]
            split_ifs at hih ⊢ <;> omega
        · simp only [Option.some.injEq, Prod.mk.injEq] at hop
          have hc2 : c2.label_counter = c.label_counter := by rw [← hop.2]
          have hs2 : c2.loop_stack = c.loop_stack := by rw [← hop.2]
          rw [hc2] at hih hmono
          rw [hs2] at hih
          rw [← hop.1, List.count_nil]
          omega


/-! ### The loop-start definition lines appear in strictly increasing label order -/

theorem pred_start_true {K j : Nat} (h : j < K) :
    decide (start_def_line j ∈ (List.range K).map start_def_line) = true :=
  decide_eq_true (List.mem_map_of_mem start_def_line (List.mem_range.mpr h))

theorem pred_start_false {K : Nat} {s : String}
    (h : ∀ j : Nat, s ≠ start_def_line j) :
    decide (s ∈ (List.range K).map start_def_line) = false := by
  apply decide_eq_false
  intro hmem
  obtain ⟨j, hj, he⟩ := List.mem_map.mp hmem
  exact h j he.symm

theorem filter_start_nil {K : Nat} {l : List String}
    (h : ∀ s ∈ l, ∀ j : Nat, s ≠ start_def_line j) :
    l.filter (fun s => decide (s ∈ (List.range K).map start_def_line)) = [] := by
  rw [List.filter_eq_nil_iff]
  intro a ha
  rw [pred_start_false (h a ha)]
  simp

theorem emitOps_filter_start : ∀ (ops : List (Char × Nat)) (c c1 : Compiler),
    (emitOps c ops).2 = Except.ok c1 → ∀ K : Nat, c1.label_counter ≤ K →
    (emitOps c ops).1.filter
        (fun s => decide (s ∈ (List.range K).map start_def_line)) =
      (List.range' c.label_counter (c1.label_counter - c.label_counter)).map
        start_def_line := by
  intro ops
  induction ops with
  | nil =>
    intro c c1 h K hK
    have h3 : (Except.ok c : Except CErr Compiler) = Except.ok c1 := h
    have h4 : c = c1 := by simpa using h3
    subst h4
    show List.filter _ [] = _
    rw [List.filter_nil, Nat.sub_self]
    rfl
  | cons op ops ih =>
    intro c c1 h K hK
    cases hop : emitOp c op with
    | none =>
      rw [emitOps, hop] at h
      simp at h
    | some r =>
      obtain ⟨out, c2⟩ := r
      rw [emitOps, hop] at h
      have h2 : (emitOps c2 ops).2 = Except.ok c1 := h
      have hmono := emitOps_mono ops c2 c1 h2
      have hih := ih c2 c1 h2 K hK
      have hcount : (emitOps c (op :: ops)).1 = out ++ (emitOps c2 ops).1 := by
        rw [emitOps, hop]
      rw [hcount, List.filter_append]
      obtain ⟨ch, n⟩ := op
      by_cases hcond : 1 < n ∧ is_foldable ch = true
      · rw [emitOp_fold hcond.2 hcond.1] at hop
        simp only [Option.some.injEq, Prod.mk.injEq] at hop
        have hc2 : c2.label_counter = c.label_counter := by rw [← hop.2]
        rw [hc2] at hih
        rw [← hop.1, filter_start_nil (by
          intro s hs j
          simp at hs
          rw [hs]
          exact ne_start_of_head (by rw [folded_line_data0 hcond.2]; decide) j),
          List.nil_append, hih]
      · rw [emitOp_unit hcond] at hop
        rw [compile_instruction.eq_def] at hop
        split at hop
        · simp only [Option.some.injEq, Prod.mk.injEq] at hop
          have hc2 : c2.label_counter = c.label_counter := by rw [← hop.2]
          rw [hc2] at hih
          rw [← hop.1, filter_start_nil (by
            intro s hs j
            simp at hs
            rw [hs]
            exact ne_start_of_head (by
              rw [unit_line_data0 (show is_foldable '+' = true from rfl)]
              decide) j), List.nil_append, hih]
        · simp only [Option.some.injEq, Prod.mk.injEq] at hop
          have hc2 : c2.label_counter = c.label_counter := by rw [← hop.2]
          rw [hc2] at hih
          rw [← hop.1, filter_start_nil (by
            intro s hs j
            simp at hs
            rw [hs]
            exact ne_start_of_head (by
              rw [unit_line_data0 (show is_foldable '-' = true from rfl)]
              decide) j), List.nil_append, hih]
        · simp only [Option.some.injEq, Prod.mk.injEq] at hop
          have hc2 : c2.label_counter = c.label_counter := by rw [← hop.2]
          rw [hc2] at hih
          rw [← hop.1, filter_start_nil (by
            intro s hs j
            simp at hs
            rw [hs]
            exact ne_start_of_head (by
              rw [unit_line_data0 (show is_foldable '>' = true from rfl)]
              decide) j), List.nil_append, hih]
        · simp only [Option.some.injEq, Prod.mk.injEq] at hop
          have hc2 : c2.label_counter = c.label_counter := by rw [← hop.2]
          rw [hc2] at hih
          rw [← hop.1, filter_start_nil (by
            intro s hs j
            simp at hs
            rw [hs]
            exact ne_start_of_head (by
              rw [unit_line_data0 (show is_foldable '<' = true from rfl)]
              decide) j), List.nil_append, hih]
        · simp only [Option.some.injEq, Prod.mk.injEq] at hop
          have hc2 : c2.label_counter = c.label_counter := by rw [← hop.2]
          rw [hc2] at hih
          rw [← hop.1, filter_start_nil (by
            intro s hs j
            exact ne_start_of_head (io_out_heads s hs) j),
            List.nil_append, hih]
        · simp only [Option.some.injEq, Prod.mk.injEq] at hop
          have hc2 : c2.label_counter = c.label_counter := by rw [← hop.2]
          rw [hc2] at hih
          rw [← hop.1, filter_start_nil (by
            intro s hs j
            exact ne_start_of_head (io_in_heads s hs) j),
            List.nil_append, hih]
        · simp only [next_label, push_loop, Option.some.injEq,
            Prod.mk.injEq] at hop
          have hc2 : c2.label_counter = c.label_counter + 1 := by rw [← hop.2]
          rw [hc2] at hih hmono
          have hkK : c.label_counter < K := by omega
          have hout : List.filter
              (fun s => decide (s ∈ (List.range K).map start_def_line))
              [start_def_line c.label_counter, cmp_line,
                je_line c.label_counter] = [start_def_line c.label_counter] := by
            rw [List.filter_cons, List.filter_cons, List.filter_cons,
              List.filter_nil]
            rw [pred_start_true hkK,
              pred_start_false (fun j => ne_start_of_head (by decide) j),
              pred_start_false (fun j =>
                ne_start_of_head (by rw [je_line_data0]; decide) j)]
            simp
          rw [← hop.1, hout, hih]
          have hrange : c1.label_counter - c.label_counter =
              (c1.label_counter - (c.label_counter + 1)) + 1 := by omega
          rw [hrange, List.range'_succ]
          rfl
        · cases hstack : c.loop_stack with
          | nil =>
            rw [pop_loop_nil hstack] at hop
            exact absurd hop (by simp)
          | cons m2 s2 =>
            rw [pop_loop_cons hstack] at hop
            simp only [Option.some.injEq, Prod.mk.injEq] at hop
            have hc2 : c2.label_counter = c.label_counter := by rw [← hop.2]
            rw [hc2] at hih
            rw [← hop.1, filter_start_nil (by
              intro s hs j
              simp at hs
              rcases hs with rfl | rfl | rfl
              · exact ne_start_of_head (by decide) j
              · exact ne_start_of_head (by rw [jne_line_data0]; decide) j
              · exact (start_ne_end j m2).symm),
              List.nil_append, hih]
        · simp only [Option.some.injEq, Prod.mk.injEq] at hop
          have hc2 : c2.label_counter = c.label_counter := by rw [← hop.2]
          rw [hc2] at hih
          rw [← hop.1, List.filter_nil, List.nil_append, hih]


/-! ### Non-splitting noise insertion preserves the FoldedOp stream -/

theorem NI_run {P : Char → Prop} {ch : Char} (hf : is_foldable ch = true) :
    ∀ {prev : Option Char} {xs ys : List Char}, NI P prev xs ys →
    prev = some ch →
    run_len ch ys = run_len ch xs ∧
      NI P prev (xs.drop (run_len ch xs)) (ys.drop (run_len ch ys)) := by
  intro prev xs ys d
  induction d with
  | nil prev2 =>
    intro hprev
    exact ⟨rfl, NI.nil prev2⟩
  | @keep prev2 xs2 ys2 c d2 ih =>
    intro hprev
    by_cases hc : c = ch
    · subst hc
      obtain ⟨h1, h2⟩ := ih rfl
      constructor
      · rw [run_len_cons_self, run_len_cons_self, h1]
      · rw [run_len_cons_self, run_len_cons_self, List.drop_succ_cons,
          List.drop_succ_cons, hprev, h1]
        rw [h1] at h2
        exact h2
    · constructor
      · rw [run_len_cons_ne hc, run_len_cons_ne hc]
      · rw [run_len_cons_ne hc, run_len_cons_ne hc, List.drop_zero,
          List.drop_zero]
        exact NI.keep c d2
  | @noise prev2 xs2 ys2 b hb hbni hok d2 ih =>
    intro hprev
    subst hprev
    have hbne : ¬b = ch := by
      intro he
      subst he
      exact absurd (foldable_instr hf) (by rw [hbni]; simp)
    have hxs : run_len ch xs2 = 0 := by
      apply run_len_eq_zero
      intro hhead
      exact absurd (hok ch rfl hhead) (by rw [hf]; simp)
    constructor
    · rw [run_len_cons_ne hbne, hxs]
    · rw [run_len_cons_ne hbne, hxs, List.drop_zero, List.drop_zero]
      exact NI.noise b hb hbni hok d2

theorem scanOps_NI : ∀ (n : Nat) (ys xs : List Char) (prev : Option Char)
    (P : Char → Prop), ys.length ≤ n → NI P prev xs ys →
    scanOps ys = scanOps xs := by
  intro n
  induction n with
  | zero =>
    intro ys xs prev P hl d
    have hys : ys = [] := List.length_eq_zero.mp (by omega)
    subst hys
    cases d
    rfl
  | succ n ih =>
    intro ys xs prev P hl d
    cases d with
    | nil => rfl
    | @keep prev2 xs2 ys2 c d2 =>
      by_cases hf : is_foldable c = true
      · rw [scanOps_fold hf, scanOps_fold hf]
        obtain ⟨h1, h2⟩ := NI_run hf d2 rfl
        rw [h1] at h2 ⊢
        congr 1
        apply ih (ys2.drop (run_len c xs2)) (xs2.drop (run_len c xs2))
          (some c) P ?_ h2
        simp only [List.length_cons] at hl
        have := List.length_drop (run_len c xs2) ys2
        omega
      · by_cases hi : is_instruction c = true
        · have hnf : is_foldable c = false := by
            cases hfv : is_foldable c
            · rfl
            · exact absurd hfv hf
          rw [scanOps_nonfold hi hnf, scanOps_nonfold hi hnf]
          congr 1
          apply ih ys2 xs2 (some c) P ?_ d2
          simp only [List.length_cons] at hl
          omega
        · have hni : is_instruction c = false := by
            cases hiv : is_instruction c
            · rfl
            · exact absurd hiv hi
          rw [scanOps_noise hni, scanOps_noise hni]
          apply ih ys2 xs2 (some c) P ?_ d2
          simp only [List.length_cons] at hl
          omega
    | @noise prev2 xs2 ys2 b hb hbni hok d2 =>
      rw [scanOps_noise hbni]
      apply ih ys2 xs prev P ?_ d2
      simp only [List.length_cons] at hl
      omega

theorem compile_NI {P : Char → Prop} {xs ys : List Char}
    (h : NI P none xs ys) : compile ys = compile xs :=
  compile_congr (scanOps_NI ys.length ys xs none P le_rfl h)

/-! ### Semantics: a folded line equals the iterated single-step line -/

theorem writeCell_ptr (s : MState) (v : Int) : (writeCell s v).ptr = s.ptr := rfl

theorem writeCell_writeCell (s : MState) (v w : Int) :
    writeCell (writeCell s v) w = writeCell s w := by
  simp only [writeCell]
  congr 1
  funext i
  by_cases hi : i = s.ptr <;> simp [hi]

theorem writeCell_tape_self (s : MState) (v : Int) :
    (writeCell s v).tape (writeCell s v).ptr = v := by
  simp [writeCell]

theorem unit_step_inc (s : MState) :
    unit_step '+' s = writeCell s ((s.tape s.ptr + 1) % 256) := rfl

theorem unit_step_dec (s : MState) :
    unit_step '-' s = writeCell s ((s.tape s.ptr - 1) % 256) := rfl

theorem iterate_unit_inc : ∀ (n : Nat), 1 ≤ n → ∀ s : MState,
    (unit_step '+')^[n] s = writeCell s ((s.tape s.ptr + n) % 256) := by
  intro n
  induction n with
  | zero => omega
  | succ n ih =>
    intro _ s
    by_cases hn : 1 ≤ n
    · rw [Function.iterate_succ_apply', ih hn s, unit_step_inc,
        writeCell_writeCell]
      congr 1
      rw [writeCell_tape_self]
      push_cast
      omega
    · have hn0 : n = 0 := by omega
      subst hn0
      rw [Function.iterate_one, unit_step_inc]
      congr 1

theorem iterate_unit_dec : ∀ (n : Nat), 1 ≤ n → ∀ s : MState,
    (unit_step '-')^[n] s = writeCell s ((s.tape s.ptr - n) % 256) := by
  intro n
  induction n with
  | zero => omega
  | succ n ih =>
    intro _ s
    by_cases hn : 1 ≤ n
    · rw [Function.iterate_succ_apply', ih hn s, unit_step_dec,
        writeCell_writeCell]
      congr 1
      rw [writeCell_tape_self]
      push_cast
      omega
    · have hn0 : n = 0 := by omega
      subst hn0
      rw [Function.iterate_one, unit_step_dec]
      congr 1

theorem iterate_unit_right : ∀ (n : Nat) (s : MState),
    (unit_step '>')^[n] s = { s with ptr := s.ptr + n } := by
  intro n
  induction n with
  | zero =>
    intro s
    rw [Function.iterate_zero_apply]
    show s = { s with ptr := s.ptr + ((0 : Nat) : Int) }
    push_cast
    simp
  | succ n ih =>
    intro s
    rw [Function.iterate_succ_apply', ih s]
    show { s with ptr := s.ptr + (n : Int) + 1 } =
      { s with ptr := s.ptr + ((n + 1 : Nat) : Int) }
    congr 1
    push_cast
    omega

theorem iterate_unit_left : ∀ (n : Nat) (s : MState),
    (unit_step '<')^[n] s = { s with ptr := s.ptr - n } := by
  intro n
  induction n with
  | zero =>
    intro s
    rw [Function.iterate_zero_apply]
    show s = { s with ptr := s.ptr - ((0 : Nat) : Int) }
    push_cast
    simp
  | succ n ih =>
    intro s
    rw [Function.iterate_succ_apply', ih s]
    show { s with ptr := s.ptr - (n : Int) - 1 } =
      { s with ptr := s.ptr - ((n + 1 : Nat) : Int) }
    congr 1
    push_cast
    omega


/-! ### Claim theorems -/

/-- C1: at every scan position the loop stack's depth equals the current
bracket nesting depth, and the stack holds exactly the labels of the
currently-open, not-yet-closed loops with the innermost on top; consequently
every LoopClose pops the label of the most recently opened unmatched
LoopOpen.  Formally: (1) from any scan position `pos` and compiler state `c`,
the main loop's verdict and final state are exactly those of the
specification bracket automaton `spec_open_loops` (which pushes the next
counter value on `[` and pops the most recent label on `]`) run over the
remaining bytes starting from `c`'s stack and counter — so the compiler's
stack agrees with the specification's stack of open labels at every scan
position; (2) on every accepted input the automaton's stack depth plus the
number of `]` read equals the number of `[` read, i.e. depth = nesting
depth; (3) `pop_loop` returns exactly the top of the stack, the innermost
(most recently opened) unmatched label. -/
theorem claim_C1_stack_invariant :
    (∀ (fuel : Nat) (code : List Char) (c : Compiler) (pos : Nat),
      code.length - pos ≤ fuel →
      compile_loop fuel code c pos =
        some ((emitOps c (scanOps (code.drop pos))).1,
          match spec_open_loops (code.drop pos) c.loop_stack
              c.label_counter with
          | none => Except.error CErr.unmatchedClose
          | some (s, k) => Except.ok ⟨k, s⟩)) ∧
    (∀ (l : List Char) (s : List Nat) (k : Nat),
      spec_open_loops l [] 0 = some (s, k) →
      s.length + l.count ']' = l.count '[') ∧
    (∀ (k label : Nat) (s : List Nat),
      pop_loop ⟨k, label :: s⟩ = some (label, ⟨k, s⟩)) := by
  refine ⟨?_, ?_, ?_⟩
  · intro fuel code c pos h
    rw [compile_loop_eq fuel code c pos h,
      ← emitOps_scanOps_spec (code.drop pos).length (code.drop pos) le_rfl c]
  · intro l s k h
    have hd := spec_depth l [] 0 s k h
    simpa using hd
  · intro k label s
    rfl

theorem claim_C1_stack_invariant_witness :
    ((['[', '+', ']'] : List Char).length - 0 ≤ 3 ∧
      compile_loop 3 ['[', '+', ']'] create_compiler 0 =
        some ((emitOps create_compiler (scanOps (['[', '+', ']'].drop 0))).1,
          match spec_open_loops (['[', '+', ']'].drop 0)
              create_compiler.loop_stack create_compiler.label_counter with
          | none => Except.error CErr.unmatchedClose
          | some (s, k) => Except.ok ⟨k, s⟩)) ∧
    (spec_open_loops ['[', '[', ']'] [] 0 = some ([0], 2) ∧
      ([0] : List Nat).length + (['[', '[', ']'] : List Char).count ']' =
        (['[', '[', ']'] : List Char).count '[') :=
  ⟨⟨by decide, claim_C1_stack_invariant.1 3 ['[', '+', ']'] create_compiler 0
      (by decide)⟩,
    ⟨by decide, claim_C1_stack_invariant.2.1 ['[', '[', ']'] [0] 2 (by decide)⟩⟩

/-- C3: for every run of `n` identical cell-delta or pointer-delta
operations, the folded emission (one add/subtract-by-`n`) is semantically
equivalent to emitting `n` unit operations individually: modulo 256 for the
one-byte cell, exact integer arithmetic for the pointer register. -/
theorem claim_C3_fold_transparency (ch : Char) (n : Nat)
    (hf : is_foldable ch = true) (hn : 1 ≤ n) :
    folded_step ch n = (unit_step ch)^[n] := by
  funext s
  rcases foldable_cases hf with rfl | rfl | rfl | rfl
  · rw [iterate_unit_inc n hn s]
    rfl
  · rw [iterate_unit_dec n hn s]
    rfl
  · rw [iterate_unit_right n s]
    rfl
  · rw [iterate_unit_left n s]
    rfl

theorem claim_C3_fold_transparency_witness :
    (is_foldable '+' = true ∧ 1 ≤ 3 ∧
      folded_step '+' 3 = (unit_step '+')^[3]) ∧
    (is_foldable '>' = true ∧ 1 ≤ 2 ∧
      folded_step '>' 2 = (unit_step '>')^[2]) :=
  ⟨⟨by decide, by decide, claim_C3_fold_transparency '+' 3 (by decide) (by decide)⟩,
    ⟨by decide, by decide, claim_C3_fold_transparency '>' 2 (by decide) (by decide)⟩⟩

/-- C6: when the scanner meets a repeatable instruction `ch` at position
`pos`, `count_repeats` is the length of the maximal greedy run of `ch`
starting there (at least one, every byte of the run equals `ch`, and the
byte right after the run differs), and `compile_optimized` emits exactly one
line covering the whole run, leaves the compiler state unchanged, and moves
the position so that with the main loop's final increment the cursor
advances by exactly the run length — folding never desynchronizes the
cursor. -/
theorem claim_C6_greedy_runs (code : List Char) (pos : Nat) (ch : Char)
    (c : Compiler) (h : pos < code.length) (hch : code[pos] = ch)
    (hf : is_foldable ch = true) :
    1 ≤ count_repeats code pos ch ∧
    (∀ i : Nat, i < count_repeats code pos ch → code[pos + i]? = some ch) ∧
    code[pos + count_repeats code pos ch]? ≠ some ch ∧
    compile_optimized c code pos ch =
      some ([if 1 < count_repeats code pos ch then
          folded_line ch (count_repeats code pos ch) else unit_line ch], c,
        count_repeats code pos ch - 1) ∧
    (∀ (out : List String) (c1 : Compiler) (skip : Nat),
      compile_optimized c code pos ch = some (out, c1, skip) →
      pos + skip + 1 = pos + count_repeats code pos ch) := by
  have hdrop : code.drop pos = ch :: code.drop (pos + 1) := by
    rw [List.drop_eq_getElem_cons h, hch]
  have h1 : 1 ≤ count_repeats code pos ch := by
    rw [count_repeats, hdrop, run_len_cons_self]
    omega
  have hemit : compile_optimized c code pos ch =
      some ([if 1 < count_repeats code pos ch then
          folded_line ch (count_repeats code pos ch) else unit_line ch], c,
        count_repeats code pos ch - 1) := by
    by_cases hc : 1 < count_repeats code pos ch
    · rw [compile_optimized_fold hf hc, if_pos hc]
    · rw [compile_optimized_unit (by omega), compile_instruction_foldable hf,
        if_neg hc]
      have hc1 : count_repeats code pos ch = 1 := by omega
      rw [hc1]
  refine ⟨h1, ?_, ?_, hemit, ?_⟩
  · intro i hi
    rw [count_repeats] at hi
    rw [← List.getElem?_drop]
    exact run_len_getElem? hi
  · rw [← List.getElem?_drop]
    exact run_len_max ch (code.drop pos)
  · intro out c1 skip heq
    rw [hemit] at heq
    simp only [Option.some.injEq, Prod.mk.injEq] at heq
    omega

theorem claim_C6_greedy_runs_witness :
    (0 < (['+', '+', '-'] : List Char).length ∧
      (['+', '+', '-'] : List Char)[0] = '+' ∧ is_foldable '+' = true) ∧
    compile_optimized create_compiler ['+', '+', '-'] 0 '+' =
      some ([if 1 < count_repeats ['+', '+', '-'] 0 '+' then
          folded_line '+' (count_repeats ['+', '+', '-'] 0 '+')
        else unit_line '+'], create_compiler,
        count_repeats ['+', '+', '-'] 0 '+' - 1) :=
  ⟨⟨by decide, by decide, by decide⟩,
    (claim_C6_greedy_runs ['+', '+', '-'] 0 '+' create_compiler (by decide)
      (by decide) (by decide)).2.2.2.1⟩

/-- C8: for a maximal run of length `n ≥ 1` of a repeatable instruction the
emitter emits a single instruction line — `addb`/`subb` against the byte at
the address in the pointer register for cell ops, `addq`/`subq` on the
pointer register for moves, and the unit `incb`/`decb`/`incq`/`decq` line
when `n = 1` — whose semantics is exactly add/subtract-by-`n`
(`folded_step`), for every `n ≥ 1` including `n = 1`. -/
theorem claim_C8_single_instruction (ch : Char) (n : Nat)
    (hf : is_foldable ch = true) (hn : 1 ≤ n) (code : List Char) (pos : Nat)
    (c : Compiler) (hcount : count_repeats code pos ch = n) :
    compile_optimized c code pos ch =
      some ([if 1 < n then folded_line ch n else unit_line ch], c, n - 1) ∧
    emitted_run_step ch n = folded_step ch n := by
  constructor
  · by_cases hc : 1 < n
    · rw [compile_optimized_fold hf (by omega), hcount, if_pos hc]
    · have hn1 : n = 1 := by omega
      subst hn1
      rw [compile_optimized_unit (by omega), compile_instruction_foldable hf,
        if_neg hc]
  · rw [emitted_run_step]
    by_cases hc : 1 < n
    · rw [if_pos hc]
    · have hn1 : n = 1 := by omega
      subst hn1
      rw [if_neg hc]
      funext s
      rcases foldable_cases hf with rfl | rfl | rfl | rfl
      · rw [unit_step_inc]
        show _ = writeCell s ((s.tape s.ptr + ((1 : Nat) : Int)) % 256)
        congr 1
      · rw [unit_step_dec]
        show _ = writeCell s ((s.tape s.ptr - ((1 : Nat) : Int)) % 256)
        congr 1
      · show ({ s with ptr := s.ptr + 1 } : MState) =
          { s with ptr := s.ptr + ((1 : Nat) : Int) }
        congr 1
      · show ({ s with ptr := s.ptr - 1 } : MState) =
          { s with ptr := s.ptr - ((1 : Nat) : Int) }
        congr 1

theorem claim_C8_single_instruction_witness :
    (is_foldable '-' = true ∧ 1 ≤ 1 ∧ count_repeats ['-', '>'] 0 '-' = 1) ∧
    (compile_optimized create_compiler ['-', '>'] 0 '-' =
      some ([if 1 < 1 then folded_line '-' 1 else unit_line '-'],
        create_compiler, 1 - 1) ∧
      emitted_run_step '-' 1 = folded_step '-' 1) :=
  ⟨⟨by decide, by decide, by decide⟩,
    claim_C8_single_instruction '-' 1 (by decide) (by decide) ['-', '>'] 0
      create_compiler (by decide)⟩

/-- C9: the compilation scan terminates.  (1) at every in-range position the
counted run of the byte at the cursor is non-empty; (2) every
`compile_optimized` step moves the cursor strictly forward (by `skip + 1`,
which the fold branch makes exactly the run length) and never past the end
of the input; (3) consequently `code.length - pos` loop iterations always
suffice: with that much budget the main loop never runs out of fuel. -/
theorem claim_C9_termination :
    (∀ (code : List Char) (pos : Nat) (h : pos < code.length),
      1 ≤ count_repeats code pos code[pos]) ∧
    (∀ (c : Compiler) (code : List Char) (pos : Nat) (ch : Char)
      (out : List String) (c1 : Compiler) (skip : Nat),
      pos < code.length →
      compile_optimized c code pos ch = some (out, c1, skip) →
      pos < pos + skip + 1 ∧ pos + skip + 1 ≤ code.length) ∧
    (∀ (fuel : Nat) (code : List Char) (c : Compiler) (pos : Nat),
      code.length - pos ≤ fuel → compile_loop fuel code c pos ≠ none) := by
  refine ⟨?_, ?_, ?_⟩
  · intro code pos h
    rw [count_repeats, List.drop_eq_getElem_cons h, run_len_cons_self]
    omega
  · intro c code pos ch out c1 skip hpos heq
    have hbound : count_repeats code pos ch ≤ code.length - pos := by
      rw [count_repeats]
      have := run_len_le_length ch (code.drop pos)
      rw [List.length_drop] at this
      exact this
    by_cases hcond : 1 < count_repeats code pos ch ∧ is_foldable ch = true
    · rw [compile_optimized_fold hcond.2 hcond.1] at heq
      simp only [Option.some.injEq, Prod.mk.injEq] at heq
      have hskip : count_repeats code pos ch - 1 = skip := heq.2.2
      omega
    · rw [compile_optimized_unit hcond] at heq
      cases hci : compile_instruction c ch with
      | none =>
        rw [hci] at heq
        exact absurd heq (by simp)
      | some r =>
        rw [hci] at heq
        obtain ⟨o, c2⟩ := r
        simp only [Option.some.injEq, Prod.mk.injEq] at heq
        have hskip : (0 : Nat) = skip := heq.2.2
        omega
  · intro fuel code c pos h
    rw [compile_loop_eq fuel code c pos h]
    simp

theorem claim_C9_termination_witness :
    (0 < (['+', '+'] : List Char).length ∧
      1 ≤ count_repeats ['+', '+'] 0 (['+', '+'] : List Char)[0]) ∧
    ((['+', '+'] : List Char).length - 0 ≤ 2 ∧
      compile_loop 2 ['+', '+'] create_compiler 0 ≠ none) :=
  ⟨⟨by decide, claim_C9_termination.1 ['+', '+'] 0 (by decide)⟩,
    ⟨by decide, claim_C9_termination.2.2 2 ['+', '+'] create_compiler 0
      (by decide)⟩⟩


/-- C2: for every input with balanced brackets (the specification automaton
accepts it with an empty final stack), labels are allocated in encounter
order of `[` from the monotonic counter starting at 0 and never reused or
reset: the final counter equals the number of `[` in the source, for every
`m` the emitted text contains the loop-start definition line of label `m`
exactly once when `m` is below that count and never otherwise, likewise for
the loop-end definition line (so every `loop_start_k` has exactly one
`loop_end_k` with the same numeric suffix), and the loop-start definition
lines appear in the output exactly in the order `0, 1, 2, …` — strictly
increasing in order of `[` occurrence. -/
theorem claim_C2_label_allocation (code : List Char) (k : Nat)
    (h : spec_open_loops code [] 0 = some ([], k)) :
    k = code.count '[' ∧
    (∀ m : Nat, (compile code).1.count (start_def_line m) =
      if m < k then 1 else 0) ∧
    (∀ m : Nat, (compile code).1.count (end_def_line m) =
      if m < k then 1 else 0) ∧
    (compile code).1.filter
        (fun s => decide (s ∈ (List.range k).map start_def_line)) =
      (List.range k).map start_def_line := by
  have hok : (emitOps create_compiler (scanOps code)).2 =
      Except.ok ⟨k, []⟩ := by
    rw [emitOps_scanOps_spec code.length code le_rfl create_compiler]
    rw [show create_compiler.loop_stack = [] from rfl,
      show create_compiler.label_counter = 0 from rfl, h]
  have hcomp := compile_of_ok hok rfl
  have hcounter : (0 : Nat) = k - code.count '[' + 0 := by
    have := spec_counter code [] 0 [] k h
    omega
  have hk : k = code.count '[' := by
    have := spec_counter code [] 0 [] k h
    omega
  refine ⟨hk, ?_, ?_, ?_⟩
  · intro m
    rw [hcomp, List.count_append, List.count_append,
      count_start_nil_of_heads header_heads m,
      count_start_nil_of_heads footer_heads m,
      emitOps_count_start (scanOps code) create_compiler ⟨k, []⟩ hok m]
    have e1 : create_compiler.label_counter = 0 := rfl
    have e2 : (Compiler.mk k []).label_counter = k := rfl
    rw [e1, e2]
    split_ifs <;> omega
  · intro m
    have hend := emitOps_count_end (scanOps code) create_compiler ⟨k, []⟩
      hok m
    rw [show (Compiler.mk k []).loop_stack = [] from rfl] at hend
    rw [show create_compiler.loop_stack = [] from rfl] at hend
    rw [List.count_nil] at hend
    rw [hcomp, List.count_append, List.count_append,
      count_end_nil_of_heads header_heads m,
      count_end_nil_of_heads footer_heads m]
    have e1 : create_compiler.label_counter = 0 := rfl
    have e2 : (Compiler.mk k []).label_counter = k := rfl
    rw [e1, e2] at hend
    split_ifs at hend ⊢ <;> omega
  · rw [hcomp, List.filter_append, List.filter_append,
      filter_start_nil (fun s hs j => ne_start_of_head (header_heads s hs) j),
      filter_start_nil (fun s hs j => ne_start_of_head (footer_heads s hs) j),
      emitOps_filter_start (scanOps code) create_compiler ⟨k, []⟩ hok k
        le_rfl]
    show [] ++ ((List.range' 0 (k - 0)).map start_def_line ++ []) = _
    rw [List.nil_append, List.append_nil, Nat.sub_zero,
      ← List.range_eq_range']

theorem claim_C2_label_allocation_witness :
    spec_open_loops ['[', ']'] [] 0 = some ([], 1) ∧
    1 = (['[', ']'] : List Char).count '[' ∧
    (compile ['[', ']']).1.count (start_def_line 0) = 1 ∧
    (compile ['[', ']']).1.count (end_def_line 0) = 1 := by
  have h : spec_open_loops ['[', ']'] [] 0 = some ([], 1) := by decide
  have hc := claim_C2_label_allocation ['[', ']'] 1 h
  refine ⟨h, hc.1, ?_, ?_⟩
  · have h2 := hc.2.1 0
    simpa using h2
  · have h2 := hc.2.2.1 0
    simpa using h2

/-- C4: when a `]` is met while the loop stack is empty (the specification
automaton reaches the `]` with an empty stack after an accepted prefix `p`),
compilation fails with the unmatched-`]` error at that first excess close
and aborts immediately: the emitted text is exactly the text emitted for `p`
alone minus the footer — no loop text for the failing `]`, nothing for the
bytes after it, and no footer. -/
theorem claim_C4_unmatched_close (p q : List Char) (k : Nat)
    (h : spec_open_loops p [] 0 = some ([], k)) :
    (compile (p ++ ']' :: q)).2 = Except.error CErr.unmatchedClose ∧
    (compile (p ++ ']' :: q)).1 ++ emit_footer = (compile p).1 := by
  have hp2 : (emitOps create_compiler (scanOps p)).2 = Except.ok ⟨k, []⟩ := by
    rw [emitOps_scanOps_spec p.length p le_rfl create_compiler]
    rw [show create_compiler.loop_stack = [] from rfl,
      show create_compiler.label_counter = 0 from rfl, h]
  have hscan2 : scanOps (p ++ ']' :: q) =
      scanOps p ++ (']', 1) :: scanOps q := by
    rw [scanOps_append p.length p (']' :: q) le_rfl (by
      intro b hb
      simp at hb
      rw [← hb]
      rfl)]
    rw [scanOps_nonfold (show is_instruction ']' = true by rfl)
      (show is_foldable ']' = false by rfl)]
  have hX : emitOps ⟨k, []⟩ ((']', 1) :: scanOps q) =
      ([], Except.error CErr.unmatchedClose) := by
    rw [emitOps, emitOp_unit (by simp), compile_instruction_close,
      pop_loop_nil rfl]
  have hsplit := emitOps_append_ok (scanOps p) ((']', 1) :: scanOps q)
    create_compiler ⟨k, []⟩ hp2
  have herr : (emitOps create_compiler (scanOps (p ++ ']' :: q))).2 =
      Except.error CErr.unmatchedClose := by
    rw [hscan2, hsplit, hX]
  have hbody : (emitOps create_compiler (scanOps (p ++ ']' :: q))).1 =
      (emitOps create_compiler (scanOps p)).1 := by
    rw [hscan2, hsplit, hX]
    simp
  have hcfail := compile_of_err herr
  have hcp := compile_of_ok hp2 rfl
  constructor
  · rw [hcfail]
  · rw [hcfail, hcp]
    show (emit_header ++ (emitOps create_compiler
      (scanOps (p ++ ']' :: q))).1) ++ emit_footer = _
    rw [hbody]

theorem claim_C4_unmatched_close_witness :
    spec_open_loops ['+'] [] 0 = some ([], 0) ∧
    (compile (['+'] ++ ']' :: ['-'])).2 = Except.error CErr.unmatchedClose :=
  ⟨by decide, (claim_C4_unmatched_close ['+'] ['-'] 0 (by decide)).1⟩

/-- C5: when the instruction stream is exhausted (the specification
automaton accepts the whole input, reaching end of stream with stack `s`):
if `s` is empty the fixed footer (the `sys_exit`-with-status-0 sequence) is
emitted after the body and compilation succeeds; if `s` is non-empty
compilation fails with the unmatched-`[` error — detected only at end of
stream — and the output is header plus body with no footer. -/
theorem claim_C5_end_of_stream (code : List Char) (s : List Nat) (k : Nat)
    (h : spec_open_loops code [] 0 = some (s, k)) :
    (s = [] → (compile code).2 = Except.ok () ∧
      (compile code).1 = emit_header ++ compile_body code ++ emit_footer) ∧
    (s ≠ [] → (compile code).2 = Except.error CErr.unmatchedOpen ∧
      (compile code).1 = emit_header ++ compile_body code) := by
  have hok : (emitOps create_compiler (scanOps code)).2 =
      Except.ok ⟨k, s⟩ := by
    rw [emitOps_scanOps_spec code.length code le_rfl create_compiler]
    rw [show create_compiler.loop_stack = [] from rfl,
      show create_compiler.label_counter = 0 from rfl, h]
  constructor
  · intro hs
    subst hs
    have hcomp := compile_of_ok hok rfl
    rw [hcomp, compile_body_eq]
    exact ⟨rfl, rfl⟩
  · intro hs
    cases hsv : s with
    | nil => exact absurd hsv hs
    | cons a l =>
      subst hsv
      have hcomp := compile_of_open hok (show (Compiler.mk k
        (a :: l)).loop_stack = a :: l from rfl)
      rw [hcomp, compile_body_eq]
      exact ⟨rfl, rfl⟩

theorem claim_C5_end_of_stream_witness :
    (spec_open_loops ['['] [] 0 = some ([0], 1) ∧
      (([0] : List Nat) ≠ [] ∧
        (compile ['[']).2 = Except.error CErr.unmatchedOpen)) ∧
    (spec_open_loops ['+'] [] 0 = some ([], 0) ∧
      (compile ['+']).2 = Except.ok ()) :=
  ⟨⟨by decide, by decide,
      ((claim_C5_end_of_stream ['['] [0] 1 (by decide)).2 (by decide)).1⟩,
    ⟨by decide,
      ((claim_C5_end_of_stream ['+'] [] 0 (by decide)).1 rfl).1⟩⟩

/-- C7 counterexample: the claim "inserting arbitrary non-instruction bytes
at arbitrary positions produces byte-identical emission" is false for the
code as written.  Inserting the non-instruction byte `' '` in the middle of
the run `++` of the valid program `++` splits the run: the result compiles
to two `incb` lines where the stripped program compiles to one `addb $2`
line, so the emissions differ. -/
theorem claim_C7_counterexample :
    is_instruction ' ' = false ∧
    (compile ['+', ' ', '+']).1 ≠ (compile ['+', '+']).1 := by
  constructor
  · decide
  · decide

/-- C7 (amended): inserting arbitrary non-instruction bytes is skipped
without error, and the emission is byte-identical to that of the program
with those bytes stripped, provided no inserted byte lands strictly inside a
run of identical repeatable instruction bytes (the relation `NI` allows
insertion anywhere except between two adjacent equal repeatable instruction
bytes).  Without that proviso the claim fails, see the counterexample. -/
theorem claim_C7_inert_bytes (xs ys : List Char)
    (h : NI (fun _ => True) none xs ys) : compile ys = compile xs :=
  compile_NI h

theorem claim_C7_inert_bytes_witness :
    NI (fun _ => True) none ['+', '+'] ['+', '+', 'a'] ∧
    compile ['+', '+', 'a'] = compile ['+', '+'] := by
  have hni : NI (fun _ => True) none ['+', '+'] ['+', '+', 'a'] := by
    apply NI.keep
    apply NI.keep
    apply NI.noise
    · trivial
    · decide
    · intro c hc hh
      simp at hh
    · exact NI.nil _
  exact ⟨hni, claim_C7_inert_bytes ['+', '+'] ['+', '+', 'a'] hni⟩

/-- C10 counterexample: the claim's final clause "the emission equals that
of the same source with all NUL bytes removed" is false for the code as
written: a NUL byte placed inside the run `++` splits the run, so
`"+\x00+"` compiles to two `incb` lines while the NUL-stripped source `++`
compiles to one `addb $2` line. -/
theorem claim_C10_counterexample :
    (compile ['+', Char.ofNat 0, '+']).1 ≠
      (compile (['+', Char.ofNat 0, '+'].filter
        (fun b => b != Char.ofNat 0))).1 := by
  decide

/-- C10 (amended): the NUL byte is accepted by the `strchr`
instruction-recognition check (`strchr` matches its own terminating NUL) yet
is not one of the eight instructions and falls through every emission case
of the switch — no output text and no state change — and the emission equals
that of the source with the NUL bytes removed provided no NUL lands strictly
inside a run of identical repeatable instruction bytes.  Without that
proviso the final clause fails, see the counterexample. -/
theorem claim_C10_nul_byte :
    strchr_bf (Char.ofNat 0) = true ∧
    is_instruction (Char.ofNat 0) = false ∧
    (∀ c : Compiler, compile_instruction c (Char.ofNat 0) = some ([], c)) ∧
    (∀ xs ys : List Char, NI (fun b => b = Char.ofNat 0) none xs ys →
      compile ys = compile xs) := by
  refine ⟨by decide, by decide, compile_instruction_nul, ?_⟩
  intro xs ys h
  exact compile_NI h

theorem claim_C10_nul_byte_witness :
    NI (fun b => b = Char.ofNat 0) none ['+'] ['+', Char.ofNat 0] ∧
    compile ['+', Char.ofNat 0] = compile ['+'] := by
  have hni : NI (fun b => b = Char.ofNat 0) none ['+'] ['+', Char.ofNat 0] := by
    apply NI.keep
    apply NI.noise
    · rfl
    · decide
    · intro c hc hh
      simp at hh
    · exact NI.nil _
  exact ⟨hni, claim_C10_nul_byte.2.2.2 ['+'] ['+', Char.ofNat 0] hni⟩

end Bfc
